import Mathlib

/-!
Verification development for the raggy retrieval pipeline.

Shallow embedding of the core components of the repository:
  * `src/core/vector-db.ts`   — `PersistentVectorDB` (cosine similarity, search,
    addDocuments, deleteCollection, JSON persistence)
  * `src/core/chunker.ts`     — `TextChunker` (sentence splitting, overlap chunking)
  * `src/core/embeddings.ts`  — `LocalEmbeddingService` (batched, cache-checked
    embedding generation; lazy model initialization)
  * `src/core/rag-service.ts` — `RAGService.query` (threshold filtering, answer
    concatenation)
  * `src/utils/cache.ts`      — hash-keyed cache (`hashString`, getEmbedding /
    setEmbedding / getSearchResult / setSearchResult)
  * `src/config/index.ts`     — configuration defaults

JavaScript numbers are modelled as real numbers (`ℝ`) where the code does
floating-point arithmetic, and as integers (`ℤ`) where the code only ever handles
integral quantities (sizes, counts, pages).  Strings manipulated
character-by-character (the chunker) are modelled as `List Char`; strings used
only as keys or payloads stay `String`.  The in-memory `Map` of collections is
modelled as an association list with `Map.set` / `Map.get` / `Map.delete`
semantics; the vector-store directory is modelled as an association list from
collection name to the JSON document written for it.
-/

/-! ### Configuration defaults (`src/config/index.ts`)

`config.rag` built from environment variables with these fallbacks (we model the
default environment): chunkSize 1000, chunkOverlap 200, maxResults 5,
similarityThreshold 0.7. -/

def cfgChunkSize : Int := 1000

def cfgChunkOverlap : Int := 200

def cfgMaxResults : Nat := 5

noncomputable def cfgSimilarityThreshold : ℝ := 0.7

/-! ### Data model (`src/types.ts`, `vector-db.ts`) -/

/-- Metadata attached by `RAGService.indexDocument` to a `DocumentChunk`
(`src/types.ts`: source, page?, chunkIndex, totalChunks, plus the
`documentType` / `title` / `fileSize` / `fileName` fields accessed through the
`as any` casts in `addDocuments`).  Absent (`undefined`) fields are `Option`s. -/
structure ChunkMetadata where
  source : String
  page : Option Int
  chunkIndex : Int
  totalChunks : Int
  documentType : Option String
  title : Option String
  fileSize : Option Int
  fileName : Option String
deriving DecidableEq

/-- `DocumentChunk` from `src/types.ts`. -/
structure DocumentChunk where
  id : String
  content : String
  metadata : ChunkMetadata

/-- The metadata object built inside `PersistentVectorDB.addDocuments`
(vector-db.ts lines 145-154): `page` is collapsed with `page || 0`. -/
structure StoredMetadata where
  source : String
  page : Int
  chunkIndex : Int
  totalChunks : Int
  documentType : Option String
  title : Option String
  fileSize : Option Int
  fileName : Option String
deriving DecidableEq

/-- `StoredDocument` from vector-db.ts lines 8-13. -/
structure StoredDocument where
  id : String
  content : String
  embedding : List ℝ
  metadata : StoredMetadata

/-- `SearchResult` from `src/types.ts`. -/
structure SearchResult where
  content : String
  score : ℝ
  metadata : StoredMetadata

/-! ### Association-list model of a JavaScript `Map` (string keys)

`Map.set` replaces the value of an existing key in place (keeping its insertion
position) and appends a fresh key at the end; `Map.get` is `List.lookup`;
`Map.delete` removes the key's entry. -/

def setKey {α : Type} : List (String × α) → String → α → List (String × α)
  | [], k, v => [(k, v)]
  | (k', v') :: rest, k, v =>
      if k' = k then (k, v) :: rest else (k', v') :: setKey rest k v

def removeKey {α : Type} (m : List (String × α)) (k : String) : List (String × α) :=
  m.filter (fun p => p.1 ≠ k)

/-! ### Cosine similarity (vector-db.ts lines 102-118)

The source computes `dotProduct`, `normA` and `normB` in a single loop over the
indices of `a`; with equal lengths (the only case in which the loop result is
used, thanks to the length guard on line 103) the three accumulators are the
three pairwise dot products below. -/

/-- `Σ aᵢ·bᵢ` over the common prefix of `a` and `b`. -/
def dotProduct : List ℝ → List ℝ → ℝ
  | x :: xs, y :: ys => x * y + dotProduct xs ys
  | _, _ => 0

/-- `PersistentVectorDB.cosineSimilarity` (vector-db.ts 102-118): `0` on length
mismatch, `0` when either norm accumulator is zero, otherwise
`dot / (√normA · √normB)`. -/
noncomputable def cosineSimilarity (a b : List ℝ) : ℝ :=
  if a.length ≠ b.length then 0
  else
    let dot := dotProduct a b
    let normA := dotProduct a a
    let normB := dotProduct b b
    if normA = 0 ∨ normB = 0 then 0
    else dot / (Real.sqrt normA * Real.sqrt normB)

/-! ### The persistent vector DB state -/

/-- JSON value tree, the shape produced by `JSON.stringify` /
consumed by `JSON.parse` in `saveCollectionToDisk` / `loadCollectionsFromDisk`.
Integral and non-integral numerals are distinguished leaves (the numeral text
written for an integer reads back as that integer). -/
inductive JsonVal where
  | null : JsonVal
  | bool (b : Bool) : JsonVal
  | inum (n : Int) : JsonVal
  | rnum (x : ℝ) : JsonVal
  | str (s : String) : JsonVal
  | arr (xs : List JsonVal) : JsonVal
  | obj (fields : List (String × JsonVal)) : JsonVal

/-- In-memory collections map plus the on-disk vector directory
(one JSON file per collection, keyed by collection name). -/
structure VectorDB where
  collections : List (String × List StoredDocument)
  disk : List (String × JsonVal)

/-- Scored record, the `{doc, score}` pair built in `search` (line 197-200),
score first. -/
abbrev Scored := ℝ × StoredDocument

/-- The comparator `(a, b) => b.score - a.score` keeps `a` before `b` exactly
when `b.score ≤ a.score`; an ECMAScript sort with a consistent comparator
returns the unique stable sorted permutation, realised by
`List.insertionSort` with this relation. -/
def scoreGE (a b : Scored) : Prop := b.1 ≤ a.1

noncomputable instance : DecidableRel scoreGE := fun a b => Real.decidableLE b.1 a.1

instance : IsTotal Scored scoreGE := ⟨fun a b => le_total b.1 a.1⟩

instance : IsTrans Scored scoreGE := ⟨fun _ _ _ h h' => le_trans h' h⟩

/-- `PersistentVectorDB.search` (vector-db.ts 177-225): empty result for a
missing or empty collection; otherwise score every stored record, sort
descending by score (stable), take the first `limit`, and project to
`SearchResult`s. -/
noncomputable def search (db : VectorDB) (collectionName : String)
    (queryEmbedding : List ℝ) (limit : Nat) : List SearchResult :=
  match List.lookup collectionName db.collections with
  | none => []
  | some collection =>
    if collection.length = 0 then []
    else
      let similarities : List Scored :=
        collection.map (fun doc => (cosineSimilarity queryEmbedding doc.embedding, doc))
      let sorted := List.insertionSort scoreGE similarities
      let topResults := sorted.take limit
      topResults.map (fun item => ⟨item.2.content, item.1, item.2.metadata⟩)

/-- The `StoredDocument` built from `chunks[i]` and `embeddings[i]` in
`addDocuments` (vector-db.ts 141-155). -/
def mkStoredDocument (chunk : DocumentChunk) (embedding : List ℝ) : StoredDocument :=
  { id := chunk.id
    content := chunk.content
    embedding := embedding
    metadata :=
      { source := chunk.metadata.source
        page := chunk.metadata.page.getD 0
        chunkIndex := chunk.metadata.chunkIndex
        totalChunks := chunk.metadata.totalChunks
        documentType := chunk.metadata.documentType
        title := chunk.metadata.title
        fileSize := chunk.metadata.fileSize
        fileName := chunk.metadata.fileName } }

/-! ### JSON encoding of a collection (what `JSON.stringify` writes)

`JSON.stringify` emits object fields in insertion order and omits fields whose
value is `undefined`; array order is preserved. -/

def encodeOptStr (k : String) : Option String → List (String × JsonVal)
  | none => []
  | some s => [(k, JsonVal.str s)]

def encodeOptInt (k : String) : Option Int → List (String × JsonVal)
  | none => []
  | some n => [(k, JsonVal.inum n)]

def encodeMetadata (m : StoredMetadata) : JsonVal :=
  JsonVal.obj
    ([("source", JsonVal.str m.source), ("page", JsonVal.inum m.page),
      ("chunkIndex", JsonVal.inum m.chunkIndex),
      ("totalChunks", JsonVal.inum m.totalChunks)]
      ++ encodeOptStr "documentType" m.documentType
      ++ encodeOptStr "title" m.title
      ++ encodeOptInt "fileSize" m.fileSize
      ++ encodeOptStr "fileName" m.fileName)

def encodeDocument (d : StoredDocument) : JsonVal :=
  JsonVal.obj
    [("id", JsonVal.str d.id), ("content", JsonVal.str d.content),
     ("embedding", JsonVal.arr (d.embedding.map JsonVal.rnum)),
     ("metadata", encodeMetadata d.metadata)]

def encodeCollection (coll : List StoredDocument) : JsonVal :=
  JsonVal.arr (coll.map encodeDocument)

/-! ### JSON decoding (what `JSON.parse` of such a file yields)

`loadCollectionsFromDisk` (vector-db.ts 73-97) runs `JSON.parse` on each file
and stores the result as the collection; a file that fails to parse is skipped
with a warning.  The decoder below reads back the exact shape written by
`encodeCollection`; any other shape is a parse/shape failure (`none`),
modelling the skipped file. -/

def decodeStrVal : JsonVal → Option String
  | JsonVal.str s => some s
  | _ => none

def decodeIntVal : JsonVal → Option Int
  | JsonVal.inum n => some n
  | _ => none

def decodeRealVal : JsonVal → Option ℝ
  | JsonVal.rnum x => some x
  | _ => none

/-- An optional field: absent is fine (`some none`), present must decode. -/
def decodeOptField {α : Type} (fields : List (String × JsonVal)) (k : String)
    (dec : JsonVal → Option α) : Option (Option α) :=
  match List.lookup k fields with
  | none => some none
  | some j => (dec j).map some

def decodeMetadata : JsonVal → Option StoredMetadata
  | JsonVal.obj fields => do
    let source ← (List.lookup "source" fields).bind decodeStrVal
    let page ← (List.lookup "page" fields).bind decodeIntVal
    let chunkIndex ← (List.lookup "chunkIndex" fields).bind decodeIntVal
    let totalChunks ← (List.lookup "totalChunks" fields).bind decodeIntVal
    let documentType ← decodeOptField fields "documentType" decodeStrVal
    let title ← decodeOptField fields "title" decodeStrVal
    let fileSize ← decodeOptField fields "fileSize" decodeIntVal
    let fileName ← decodeOptField fields "fileName" decodeStrVal
    pure ⟨source, page, chunkIndex, totalChunks, documentType, title, fileSize, fileName⟩
  | _ => none

def decodeRealList : List JsonVal → Option (List ℝ)
  | [] => some []
  | j :: rest => do
    let x ← decodeRealVal j
    let xs ← decodeRealList rest
    pure (x :: xs)

def decodeDocument : JsonVal → Option StoredDocument
  | JsonVal.obj fields => do
    let id ← (List.lookup "id" fields).bind decodeStrVal
    let content ← (List.lookup "content" fields).bind decodeStrVal
    let emb ← match List.lookup "embedding" fields with
      | some (JsonVal.arr xs) => decodeRealList xs
      | _ => none
    let md ← (List.lookup "metadata" fields).bind decodeMetadata
    pure ⟨id, content, emb, md⟩
  | _ => none

def decodeDocList : List JsonVal → Option (List StoredDocument)
  | [] => some []
  | j :: rest => do
    let d ← decodeDocument j
    let ds ← decodeDocList rest
    pure (d :: ds)

def decodeCollection : JsonVal → Option (List StoredDocument)
  | JsonVal.arr xs => decodeDocList xs
  | _ => none

/-- A fresh `loadCollectionsFromDisk` over a directory: each file parses to its
collection, unparsable files are skipped. -/
def loadedCollections (disk : List (String × JsonVal)) :
    List (String × List StoredDocument) :=
  disk.filterMap (fun p => (decodeCollection p.2).map (fun coll => (p.1, coll)))

/-- `saveCollectionToDisk` (vector-db.ts 52-68): no-op when the collection is
not in memory, otherwise rewrite the collection's whole file. -/
def saveCollectionToDisk (db : VectorDB) (collectionName : String) : VectorDB :=
  match List.lookup collectionName db.collections with
  | none => db
  | some coll => { db with disk := setKey db.disk collectionName (encodeCollection coll) }

/-- `addDocuments` (vector-db.ts 123-172): create the collection if absent,
append one record per chunk/embedding pair in input order, then persist the
whole collection.  The source loop walks the indices of `chunks`; with one
embedding per chunk that is `List.zipWith mkStoredDocument`. -/
def addDocuments (db : VectorDB) (collectionName : String)
    (chunks : List DocumentChunk) (embeddings : List (List ℝ)) : VectorDB :=
  let cols :=
    if (List.lookup collectionName db.collections).isSome then db.collections
    else setKey db.collections collectionName []
  let collection := (List.lookup collectionName cols).getD []
  let db' : VectorDB :=
    { db with
        collections :=
          setKey cols collectionName
            (collection ++ List.zipWith mkStoredDocument chunks embeddings) }
  saveCollectionToDisk db' collectionName

/-- `deleteCollection` (vector-db.ts 230-247): drop the in-memory entry and the
backing file; absent entries are a no-op. -/
def deleteCollection (db : VectorDB) (name : String) : VectorDB :=
  { collections := removeKey db.collections name
    disk := removeKey db.disk name }

/-! ### Text chunker (`src/core/chunker.ts`)

Strings are modelled as `List Char`.  JavaScript's `\s` and `trim` whitespace
class is modelled by its ASCII part (space, tab, newline, carriage return),
`charCodeAt`-level details do not matter here. -/

def isWS (c : Char) : Bool := c = ' ' || c = '\t' || c = '\n' || c = '\r'

/-- Terminal punctuation of the sentence-split regex `(?<=[.!?])\s+`. -/
def isTerm (c : Char) : Bool := c = '.' || c = '!' || c = '?'

def trimRightChars (l : List Char) : List Char := (l.reverse.dropWhile isWS).reverse

/-- JavaScript `String.prototype.trim`. -/
def trimChars (l : List Char) : List Char := trimRightChars (l.dropWhile isWS)

/-- Worker for `text.split(/(?<=[.!?])\s+/)`: a maximal whitespace run
immediately preceded by `.`, `!` or `?` separates pieces and is consumed.
`acc` holds the current piece reversed. -/
def splitGo : List Char → List Char → List (List Char)
  | [], acc => [acc.reverse]
  | c :: rest, acc =>
    if isWS c && (match acc with | a :: _ => isTerm a | [] => false) then
      acc.reverse :: splitGo (rest.dropWhile isWS) []
    else
      splitGo rest (c :: acc)
termination_by l _ => l.length
decreasing_by
· exact Nat.lt_succ_of_le (List.dropWhile_suffix _).sublist.length_le
· exact Nat.lt_succ_self _

/-- `TextChunker.splitIntoSentences` (chunker.ts 53-61): split, drop blank
pieces, and append a single space to each trimmed piece. -/
def splitIntoSentences (text : List Char) : List (List Char) :=
  ((splitGo text []).filter (fun s => !(trimChars s).isEmpty)).map
    (fun s => trimChars s ++ [' '])

/-- `chunk[i]` for an integer index: `undefined` (here `none`) out of range. -/
def charAtInt (l : List Char) (i : Int) : Option Char :=
  if h : 0 ≤ i ∧ i < (l.length : Int) then some (l.get ⟨i.toNat, by omega⟩) else none

/-- The backward scan of `getOverlapText` (chunker.ts 75-80): walk `i` down
from `overlapSize` while `i > overlapSize - 50 && i > 0`; the first space found
gives `breakPoint = i + 1`, otherwise `breakPoint = overlapSize`. -/
def scanBreakAux (chunk : List Char) (ov : Int) (i : Int) : Int :=
  if h : i > ov - 50 ∧ i > 0 then
    if charAtInt chunk i = some ' ' then i + 1
    else scanBreakAux chunk ov (i - 1)
  else ov
termination_by (i - (ov - 50)).toNat
decreasing_by omega

/-- JavaScript `String.prototype.slice` with one argument. -/
def jsSliceFrom (l : List Char) (start : Int) : List Char :=
  let st : Int := if start < 0 then max ((l.length : Int) + start) 0
                  else min start (l.length : Int)
  l.drop st.toNat

/-- `TextChunker.getOverlapText` (chunker.ts 66-83). -/
def getOverlapText (chunk : List Char) (overlapSize : Int) : List Char :=
  if (chunk.length : Int) ≤ overlapSize then chunk
  else jsSliceFrom chunk (-(scanBreakAux chunk overlapSize overlapSize))

/-- Loop state of `chunkText`: emitted chunks, current buffer, running size.
`currentSize` is carried separately exactly as in the source. -/
structure ChunkState where
  chunks : List (List Char)
  currentChunk : List Char
  currentSize : Int

/-- One iteration of the sentence loop (chunker.ts 26-39): emit-and-reseed when
the buffer would overflow and is non-blank, then append the sentence. -/
def chunkStep (size overlapSize : Int) (st : ChunkState) (sentence : List Char) :
    ChunkState :=
  if st.currentSize + (sentence.length : Int) > size ∧ trimChars st.currentChunk ≠ [] then
    let seeded := getOverlapText st.currentChunk overlapSize
    { chunks := st.chunks ++ [trimChars st.currentChunk]
      currentChunk := seeded ++ sentence
      currentSize := (seeded.length : Int) + (sentence.length : Int) }
  else
    { chunks := st.chunks
      currentChunk := st.currentChunk ++ sentence
      currentSize := st.currentSize + (sentence.length : Int) }

/-- The body of `chunkText` after parameter validation (chunker.ts 20-47). -/
def chunkCore (text : List Char) (size overlapSize : Int) : List (List Char) :=
  let st := (splitIntoSentences text).foldl (chunkStep size overlapSize) ⟨[], [], 0⟩
  if trimChars st.currentChunk ≠ [] then st.chunks ++ [trimChars st.currentChunk]
  else st.chunks

/-- JavaScript `x || d` for an optional numeric parameter: `undefined` and `0`
both fall back to the default. -/
def jsOrDefault (x : Option Int) (d : Int) : Int :=
  match x with
  | none => d
  | some v => if v = 0 then d else v

/-- `TextChunker.chunkText` (chunker.ts 8-48) including the `||` defaulting and
the two validation throws (modelled as `Except.error`). -/
def chunkText (text : List Char) (chunkSize overlap : Option Int) :
    Except String (List (List Char)) :=
  let size := jsOrDefault chunkSize cfgChunkSize
  let overlapSize := jsOrDefault overlap cfgChunkOverlap
  if size ≤ 0 then Except.error "Chunk size must be positive"
  else if overlapSize ≥ size then Except.error "Overlap size must be less than chunk size"
  else Except.ok (chunkCore text size overlapSize)

/-- The last `n` characters of a list (`p.slice(-n)` for `0 < n ≤ length`). -/
def lastN (n : Nat) (l : List Char) : List Char := l.drop (l.length - n)

/-- No two adjacent whitespace characters (single-spaced text). -/
def noTwoWS (l : List Char) : Prop :=
  List.Chain' (fun a b => isWS a = false ∨ isWS b = false) l

instance : DecidablePred noTwoWS := fun l => List.decidableChain' l

/-- Executable checker for `noTwoWS`. -/
def noTwoWSb : List Char → Bool
  | [] => true
  | [_] => true
  | a :: b :: rest => (!(isWS a) || !(isWS b)) && noTwoWSb (b :: rest)

/-! ### Hash-keyed cache (`src/utils/cache.ts`)

`node-cache` itself is an external collaborator; the store is modelled as a
total map from key strings to optional values, with the embedding and search
namespaces kept apart (their key prefixes `embedding:` / `search:` are
disjoint).  TTL expiry is wall-clock behaviour and is outside the model. -/

/-- 32-bit signed wrap-around (`| 0` / `& hash` coercion). -/
def toInt32 (x : Int) : Int := (x + 2 ^ 31) % 2 ^ 32 - 2 ^ 31

/-- One step of `hashString` (cache.ts 236-239):
`hash = ((hash << 5) - hash) + char; hash = hash & hash`. -/
def hashStep (h : Int) (c : Nat) : Int := toInt32 (toInt32 (h * 32) - h + c)

/-- Lowercase base-36 digit, as used by `Number.prototype.toString(36)`. -/
def digitChar36 (n : Nat) : Char :=
  if n < 10 then Char.ofNat (48 + n) else Char.ofNat (87 + n)

def toBase36Go : Nat → Nat → List Char
  | 0, _ => []
  | fuel + 1, n =>
    if n < 36 then [digitChar36 n]
    else toBase36Go fuel (n / 36) ++ [digitChar36 (n % 36)]

/-- Digit expansion of `n` in base 36 (structural fuel recursion; the fuel
`n + 1` always suffices since the argument shrinks by division). -/
def toBase36 (n : Nat) : List Char := toBase36Go (n + 1) n

/-- `Cache.hashString` (cache.ts 234-242): 31-based rolling hash over the
UTF-16 code units (code points, for the basic plane modelled here), absolute
value, base-36. -/
def hashString (s : String) : String :=
  String.mk (toBase36 (Int.natAbs (s.toList.foldl (fun h c => hashStep h c.toNat) 0)))

/-- `QueryResponse` from `src/types.ts`.  `processingTime` is wall-clock and is
modelled as 0. -/
structure QueryResponse where
  answer : String
  sources : List SearchResult
  processingTime : Int

/-- The cache contents relevant to the core: the `embedding:*` and `search:*`
entries of the shared `node-cache` store. -/
structure CacheState where
  embeddings : String → Option (List ℝ)
  searches : String → Option QueryResponse

def emptyCache : CacheState := ⟨fun _ => none, fun _ => none⟩

/-- `Cache.getEmbedding` (cache.ts 219-222). -/
def getEmbedding (c : CacheState) (text : String) : Option (List ℝ) :=
  c.embeddings ("embedding:" ++ hashString text)

/-- `Cache.setEmbedding` (cache.ts 214-217). -/
def setEmbedding (c : CacheState) (text : String) (v : List ℝ) : CacheState :=
  { c with embeddings := fun k =>
      if k = "embedding:" ++ hashString text then some v else c.embeddings k }

/-- `Cache.getSearchResult` (cache.ts 229-232). -/
def getSearchResult (c : CacheState) (q collection : String) : Option QueryResponse :=
  c.searches ("search:" ++ collection ++ ":" ++ hashString q)

/-- `Cache.setSearchResult` (cache.ts 224-227). -/
def setSearchResult (c : CacheState) (q collection : String) (r : QueryResponse) :
    CacheState :=
  { c with searches := fun k =>
      if k = "search:" ++ collection ++ ":" ++ hashString q then some r
      else c.searches k }

/-! ### Embedding generation (`src/core/embeddings.ts`)

The transformer pipeline is an external collaborator, modelled as a pure
function `extractor : String → List ℝ`.  Within one batch of 50 the per-text
async closures all perform their cache reads before any of the awaited writes
land (single-threaded event loop), so a batch reads the batch-entry cache and
then applies the writes of its misses. -/

/-- The batches `texts.slice(batchStart, batchStart + 50)` of the loop on
embeddings.ts 46-77. -/
def toBatches {α : Type} : List α → List (List α)
  | [] => []
  | x :: rest => (x :: rest).take 50 :: toBatches ((x :: rest).drop 50)
termination_by l => l.length
decreasing_by simp only [List.length_drop, List.length_cons]; omega

/-- One `Promise.all` batch (embeddings.ts 51-71): every text resolves against
the batch-entry cache (hit: cached vector, miss: extractor output), and each
miss writes its vector back. -/
def processBatch (extractor : String → List ℝ) (cache : CacheState)
    (batch : List String) : List (List ℝ) × CacheState :=
  (batch.map (fun t => (getEmbedding cache t).getD (extractor t)),
   batch.foldl
     (fun c t =>
       if (getEmbedding cache t).isSome then c else setEmbedding c t (extractor t))
     cache)

/-- `LocalEmbeddingService.generateEmbeddings` (embeddings.ts 36-91): fold the
batches sequentially, accumulating outputs in order and threading the cache. -/
def generateEmbeddings (extractor : String → List ℝ) (cache : CacheState)
    (texts : List String) : List (List ℝ) × CacheState :=
  (toBatches texts).foldl
    (fun acc batch =>
      let r := processBatch extractor acc.2 batch
      (acc.1 ++ r.1, r.2))
    ([], cache)

/-- `LocalEmbeddingService.generateQueryEmbedding` (embeddings.ts 96-121). -/
def generateQueryEmbedding (extractor : String → List ℝ) (cache : CacheState)
    (q : String) : List ℝ × CacheState :=
  match getEmbedding cache q with
  | some e => (e, cache)
  | none => (extractor q, setEmbedding cache q (extractor q))

/-! ### `RAGService.query` (`src/core/rag-service.ts` 165-229) -/

/-- `QueryRequest` from `src/types.ts`. -/
structure QueryRequest where
  question : String
  collection : String
  limit : Option Nat
  threshold : Option ℝ

/-- `limit || config.rag.maxResults` (rag-service.ts 192). -/
def effLimit (limit : Option Nat) : Nat :=
  match limit with
  | none => cfgMaxResults
  | some l => if l = 0 then cfgMaxResults else l

/-- The passage header `[source, Page n]` prefixed to each matched chunk
(rag-service.ts 203). -/
def sourceHeader (r : SearchResult) : String :=
  "[" ++ r.metadata.source ++ ", Page " ++ toString r.metadata.page ++ "]\n" ++ r.content

/-- JavaScript `Array.prototype.join(sep)`. -/
def jsJoin (sep : String) : List String → String
  | [] => ""
  | [x] => x
  | x :: y :: rest => x ++ sep ++ jsJoin sep (y :: rest)

/-- `RAGService.query`: answer the cached response on a search-cache hit;
otherwise embed the question, search, filter by threshold
(`threshold !== undefined ? threshold : config.rag.similarityThreshold`),
join the matched passages — falling back to a fixed message when the joined
context is empty — and cache the response. -/
noncomputable def query (extractor : String → List ℝ) (cache : CacheState)
    (db : VectorDB) (req : QueryRequest) : QueryResponse × CacheState :=
  match getSearchResult cache req.question req.collection with
  | some cached => ({ cached with processingTime := 0 }, cache)
  | none =>
    let qe := generateQueryEmbedding extractor cache req.question
    let searchResults := search db req.collection qe.1 (effLimit req.limit)
    let similarityThreshold := req.threshold.getD cfgSimilarityThreshold
    let filteredResults := searchResults.filter
      (fun r => decide (similarityThreshold ≤ r.score))
    let context := jsJoin "\n\n---\n\n" (filteredResults.map sourceHeader)
    let answer := if context = "" then "No relevant content found in the documents."
                  else context
    let response : QueryResponse := ⟨answer, filteredResults, 0⟩
    (response, setSearchResult qe.2 req.question req.collection response)

/-! ### Lazy model initialization (`src/core/embeddings.ts` 12-31, 126-130)

Cooperative (single-threaded, async) interleaving model.  A caller/task is in
phase `idle` before its `ensureInitialized` check, `loading` while it awaits
its own `pipeline(...)` load, `done` afterwards.  `start i` runs the
synchronous prefix of `ensureInitialized`/`initialize` for task `i`: the
`initialized` flag is read, and when it is still false the task begins its own
model load (there is no shared in-flight promise in the source).  `finish i`
resumes task `i` after its await: the load completes and `initialized` is set
(embeddings.ts 24). -/

inductive TaskPhase where
  | idle : TaskPhase
  | loading : TaskPhase
  | done : TaskPhase
deriving DecidableEq

structure SvcState where
  initialized : Bool
  loads : Nat
  tasks : List TaskPhase
deriving DecidableEq

inductive SvcEvent where
  | start (i : Nat) : SvcEvent
  | finish (i : Nat) : SvcEvent

def svcStep (st : SvcState) (e : SvcEvent) : SvcState :=
  match e with
  | SvcEvent.start i =>
    match st.tasks.get? i with
    | some TaskPhase.idle =>
      if st.initialized then { st with tasks := st.tasks.set i TaskPhase.done }
      else
        { initialized := st.initialized
          loads := st.loads + 1
          tasks := st.tasks.set i TaskPhase.loading }
    | _ => st
  | SvcEvent.finish i =>
    match st.tasks.get? i with
    | some TaskPhase.loading =>
      { initialized := true, loads := st.loads, tasks := st.tasks.set i TaskPhase.done }
    | _ => st

def svcRun (st : SvcState) (es : List SvcEvent) : SvcState := es.foldl svcStep st

/-- `n` callers, none yet started, model not loaded. -/
def svcStart (n : Nat) : SvcState := ⟨false, 0, List.replicate n TaskPhase.idle⟩

/-- Fully serialized callers: each caller runs to completion before the next
begins. -/
def seqSchedule (k : Nat) : List SvcEvent :=
  (List.range k).flatMap (fun i => [SvcEvent.start i, SvcEvent.finish i])

/-! ### Predicates for the chunk-overlap invariant (claim C2) -/

/-- The sharp overlap link between consecutive chunks: some non-empty tail of
`p` of length at most `ov` reappears, followed by a space, at the start of
`q`. -/
def SharpLink (ov : Int) (p q : List Char) : Prop :=
  ∃ t : List Char, t ≠ [] ∧ t <:+ p ∧ (t.length : Int) ≤ ov ∧ (t ++ [' ']) <+: q

/-- The running buffer still carries the overlap seed taken from the last
emitted chunk `p`: it is (whitespace) ++ t ++ ' ' ++ r, where `t` is a
non-empty tail of `p` of length at most `ov` starting with a non-space, and
the remainder `r` contains a non-space character. -/
def LinkOK (ov : Int) (p cur : List Char) : Prop :=
  ∃ w t r, cur = w ++ t ++ (' ' :: r) ∧ w.all isWS ∧ t ≠ [] ∧
    (∀ c ∈ t.head?, isWS c = false) ∧ t <:+ p ∧ (t.length : Int) ≤ ov ∧
    ∃ x ∈ r, isWS x = false

/-- Invariant of the sentence loop of `chunkText` (single-spaced input). -/
def BufInv (ov : Int) (st : ChunkState) : Prop :=
  noTwoWS st.currentChunk ∧
  (st.currentChunk = [] ∨ st.currentChunk.getLast? = some ' ') ∧
  List.Chain' (SharpLink ov) st.chunks ∧
  (st.chunks = [] ∨ ∃ p, st.chunks.getLast? = some p ∧ LinkOK ov p st.currentChunk)

/-- Shape of every element of `splitIntoSentences`: single-spaced, a non-empty
trimmed core followed by exactly one trailing space, starting non-space. -/
def SentenceOK (s : List Char) : Prop :=
  noTwoWS s ∧ ∃ m, s = m ++ [' '] ∧ m ≠ [] ∧ (∀ c ∈ m.head?, isWS c = false)

/-! ## Helper lemmas: association-list maps -/

theorem lookup_cons {α : Type} (k k0 : String) (v0 : α) (rest : List (String × α)) :
    List.lookup k ((k0, v0) :: rest) = if k = k0 then some v0 else List.lookup k rest := by
  by_cases h : k = k0
  · subst h
    simp [List.lookup]
  · have hb : (k == k0) = false := beq_eq_false_iff_ne.mpr h
    simp [List.lookup, hb, h]

theorem lookup_setKey_self {α : Type} (m : List (String × α)) (k : String) (v : α) :
    List.lookup k (setKey m k v) = some v := by
  induction m with
  | nil => simp [setKey, lookup_cons]
  | cons p rest ih =>
    cases p with
    | mk k0 v0 =>
      by_cases h : k0 = k
      · simp [setKey, h, lookup_cons]
      · simpa [setKey, h, lookup_cons, Ne.symm h] using ih

theorem lookup_setKey_other {α : Type} (m : List (String × α)) (k : String) (v : α)
    (k' : String) (h : k' ≠ k) :
    List.lookup k' (setKey m k v) = List.lookup k' m := by
  induction m with
  | nil => simp [setKey, lookup_cons, h]
  | cons p rest ih =>
    cases p with
    | mk k0 v0 =>
      by_cases hp : k0 = k
      · subst hp
        simp [setKey, lookup_cons, h]
      · by_cases h0 : k' = k0
        · simp [setKey, hp, lookup_cons, h0]
        · simpa [setKey, hp, lookup_cons, h0] using ih

theorem lookup_removeKey_self {α : Type} (m : List (String × α)) (k : String) :
    List.lookup k (removeKey m k) = none := by
  induction m with
  | nil => simp [removeKey]
  | cons p rest ih =>
    cases p with
    | mk k0 v0 =>
      by_cases h : k0 = k
      · simpa [removeKey, h] using ih
      · simpa [removeKey, h, lookup_cons, Ne.symm h] using ih

theorem saveCollectionToDisk_collections (db : VectorDB) (c : String) :
    (saveCollectionToDisk db c).collections = db.collections := by
  unfold saveCollectionToDisk
  cases List.lookup c db.collections <;> rfl

/-! ## Claim C10: totality of the similarity computation -/

theorem dotProduct_self_nonneg (a : List ℝ) : 0 ≤ dotProduct a a := by
  induction a with
  | nil => simp [dotProduct]
  | cons x xs ih => simpa [dotProduct] using add_nonneg (mul_self_nonneg x) ih

/-- Claim C10: `cosineSimilarity` is total: it returns 0 when the two vectors
have different lengths or when either norm accumulator is zero, and only
divides when the divisor `√normA · √normB` is provably nonzero, so `search`
never fails on malformed or zero vectors. -/
theorem cosineSimilarity_total (a b : List ℝ) :
    (a.length ≠ b.length → cosineSimilarity a b = 0) ∧
    (dotProduct a a = 0 ∨ dotProduct b b = 0 → cosineSimilarity a b = 0) ∧
    (a.length = b.length → dotProduct a a ≠ 0 → dotProduct b b ≠ 0 →
      Real.sqrt (dotProduct a a) * Real.sqrt (dotProduct b b) ≠ 0 ∧
      cosineSimilarity a b =
        dotProduct a b / (Real.sqrt (dotProduct a a) * Real.sqrt (dotProduct b b))) := by
  refine ⟨fun h => by simp [cosineSimilarity, h], fun h => ?_, fun hl ha hb => ?_⟩
  · by_cases hl : a.length ≠ b.length
    · simp [cosineSimilarity, hl]
    · simp [cosineSimilarity, hl, h]
  · have hA : 0 < dotProduct a a := lt_of_le_of_ne (dotProduct_self_nonneg a) (Ne.symm ha)
    have hB : 0 < dotProduct b b := lt_of_le_of_ne (dotProduct_self_nonneg b) (Ne.symm hb)
    have hpos : 0 < Real.sqrt (dotProduct a a) * Real.sqrt (dotProduct b b) :=
      mul_pos (Real.sqrt_pos.mpr hA) (Real.sqrt_pos.mpr hB)
    refine ⟨ne_of_gt hpos, ?_⟩
    simp [cosineSimilarity, hl, ha, hb]

theorem cosineSimilarity_total_witness :
    ([(2 : ℝ), 0].length = [(0 : ℝ), 3].length) ∧
    dotProduct [(2 : ℝ), 0] [(2 : ℝ), 0] ≠ 0 ∧
    dotProduct [(0 : ℝ), 3] [(0 : ℝ), 3] ≠ 0 ∧
    (Real.sqrt (dotProduct [(2 : ℝ), 0] [(2 : ℝ), 0]) *
        Real.sqrt (dotProduct [(0 : ℝ), 3] [(0 : ℝ), 3]) ≠ 0 ∧
      cosineSimilarity [(2 : ℝ), 0] [(0 : ℝ), 3] =
        dotProduct [(2 : ℝ), 0] [(0 : ℝ), 3] /
          (Real.sqrt (dotProduct [(2 : ℝ), 0] [(2 : ℝ), 0]) *
            Real.sqrt (dotProduct [(0 : ℝ), 3] [(0 : ℝ), 3]))) := by
  have h1 : ([(2 : ℝ), 0].length = [(0 : ℝ), 3].length) := rfl
  have h2 : dotProduct [(2 : ℝ), 0] [(2 : ℝ), 0] ≠ 0 := by norm_num [dotProduct]
  have h3 : dotProduct [(0 : ℝ), 3] [(0 : ℝ), 3] ≠ 0 := by norm_num [dotProduct]
  exact ⟨h1, h2, h3, (cosineSimilarity_total _ _).2.2 h1 h2 h3⟩

/-! ## Claim C7: search on a missing, empty or deleted collection -/

/-- Claim C7: `search` returns the empty list (and in this total model cannot
fail) on a collection name that is absent from the store, on an empty
collection, and on a collection that was just deleted. -/
theorem search_missing_empty_deleted (db : VectorDB) (c : String) (q : List ℝ)
    (limit : Nat) :
    (List.lookup c db.collections = none → search db c q limit = []) ∧
    (List.lookup c db.collections = some [] → search db c q limit = []) ∧
    search (deleteCollection db c) c q limit = [] := by
  refine ⟨fun h => by simp [search, h], fun h => by simp [search, h], ?_⟩
  have h : List.lookup c (deleteCollection db c).collections = none := by
    simpa [deleteCollection] using lookup_removeKey_self db.collections c
  simp [search, h]

theorem search_missing_empty_deleted_witness :
    List.lookup "missing-collection" (VectorDB.mk [] []).collections = none ∧
    search (VectorDB.mk [] []) "missing-collection" [(1 : ℝ), 0] 5 = [] := by
  have h : List.lookup "missing-collection" (VectorDB.mk [] []).collections = none := rfl
  exact ⟨h, (search_missing_empty_deleted (VectorDB.mk [] []) "missing-collection"
    [(1 : ℝ), 0] 5).1 h⟩

/-! ## Claim C8: addDocuments only appends -/

/-- Claim C8: `addDocuments` appends one stored record per passage/vector pair
in input order to the named collection (creating it when absent, so the
existing records remain an unchanged prefix), and leaves every other
collection's entry untouched. -/
theorem addDocuments_appends (db : VectorDB) (c : String)
    (chunks : List DocumentChunk) (embeddings : List (List ℝ)) :
    List.lookup c (addDocuments db c chunks embeddings).collections =
      some ((List.lookup c db.collections).getD [] ++
        List.zipWith mkStoredDocument chunks embeddings) ∧
    ∀ c', c' ≠ c →
      List.lookup c' (addDocuments db c chunks embeddings).collections =
        List.lookup c' db.collections := by
  unfold addDocuments
  cases h : List.lookup c db.collections with
  | none =>
    simp only [h, Option.isSome_none, Bool.false_eq_true, if_false,
      saveCollectionToDisk_collections]
    constructor
    · rw [lookup_setKey_self db.collections c [], Option.getD_some,
        lookup_setKey_self]
      simp [h]
    · intro c' hc'
      rw [lookup_setKey_other _ _ _ _ hc', lookup_setKey_other _ _ _ _ hc']
  | some coll =>
    simp only [h, Option.isSome_some, if_true, saveCollectionToDisk_collections]
    constructor
    · exact lookup_setKey_self _ _ _
    · intro c' hc'
      rw [lookup_setKey_other _ _ _ _ hc']

theorem addDocuments_appends_witness :
    ("other" : String) ≠ "t" ∧
    List.lookup "other"
        (addDocuments (VectorDB.mk [("other", [])] []) "t"
          [DocumentChunk.mk "id0" "hello" (ChunkMetadata.mk "s" none 0 1 none none none none)]
          [[(1 : ℝ), 0]]).collections =
      List.lookup "other" (VectorDB.mk [("other", [])] []).collections := by
  have h : ("other" : String) ≠ "t" := by decide
  exact ⟨h, (addDocuments_appends (VectorDB.mk [("other", [])] []) "t" _ _).2 "other" h⟩

/-! ## Claim C6: chunkText parameter validation (corrected)

The claim as stated fails: the `||` defaulting on chunker.ts 9-10 replaces an
argument of `0` by the configured default before validation, so
`chunkText(text, 100, 0)` throws (effective overlap 200 ≥ 100) although the
claimed precondition `overlapSize < targetSize` holds, and
`chunkText(text, 0, o)` does not throw although `targetSize ≤ 0`. -/

theorem chunkText_claimed_precondition_counterexample :
    (chunkText [] (some 100) (some 0)).isOk = false ∧
    ¬ ((100 : Int) ≤ 0 ∨ (0 : Int) ≥ 100) := by
  constructor
  · rfl
  · decide

/-- Claim C6 (amended): `chunkText` fails exactly when the *effective*
parameters — the given ones, except that an omitted or zero argument falls
back to the configured default (`||`) — violate the preconditions:
effective size ≤ 0 or effective overlap ≥ effective size; under effective
parameters satisfying the preconditions the call returns `ok`. -/
theorem chunkText_error_iff (text : List Char) (chunkSize overlap : Option Int) :
    (chunkText text chunkSize overlap).isOk = false ↔
      (jsOrDefault chunkSize cfgChunkSize ≤ 0 ∨
        jsOrDefault overlap cfgChunkOverlap ≥ jsOrDefault chunkSize cfgChunkSize) := by
  unfold chunkText
  by_cases h1 : jsOrDefault chunkSize cfgChunkSize ≤ 0
  · simp [h1, Except.isOk, Except.toBool]
  · by_cases h2 : jsOrDefault overlap cfgChunkOverlap ≥ jsOrDefault chunkSize cfgChunkSize
    · simp [h1, h2, Except.isOk, Except.toBool]
    · simp [h1, h2, Except.isOk, Except.toBool]

/-! ## Claim C9: lazy model initialization (corrected)

`LocalEmbeddingService` keeps no in-flight promise: `ensureInitialized` only
reads the `initialized` flag, which is set *after* the awaited `pipeline(...)`
load completes.  Two callers that both pass the check before the first load
finishes therefore each start their own model load. -/

theorem initialization_duplicate_load_counterexample :
    (svcRun (svcStart 2)
      [SvcEvent.start 0, SvcEvent.start 1, SvcEvent.finish 0, SvcEvent.finish 1]).loads
      = 2 := by
  decide

theorem svcStep_of_initialized (st : SvcState) (e : SvcEvent)
    (h : st.initialized = true) :
    (svcStep st e).loads = st.loads ∧ (svcStep st e).initialized = true := by
  cases e with
  | start i =>
    cases hg : st.tasks[i]? with
    | none => simp [svcStep, hg, h]
    | some ph => cases ph <;> simp [svcStep, hg, h]
  | finish i =>
    cases hg : st.tasks[i]? with
    | none => simp [svcStep, hg, h]
    | some ph => cases ph <;> simp [svcStep, hg, h]

theorem svcRun_of_initialized (st : SvcState) (es : List SvcEvent)
    (h : st.initialized = true) :
    (svcRun st es).loads = st.loads ∧ (svcRun st es).initialized = true := by
  induction es generalizing st with
  | nil => exact ⟨rfl, h⟩
  | cons e rest ih =>
    have h1 := svcStep_of_initialized st e h
    have h2 := ih (svcStep st e) h1.2
    exact ⟨h2.1.trans h1.1, h2.2⟩

theorem svcRun_no_tasks (st : SvcState) (es : List SvcEvent) (h : st.tasks = []) :
    svcRun st es = st := by
  induction es generalizing st with
  | nil => rfl
  | cons e rest ih =>
    have hstep : svcStep st e = st := by
      cases e with
      | start i => simp [svcStep, h]
      | finish i => simp [svcStep, h]
    show svcRun (svcStep st e) rest = st
    rw [hstep, ih st h]

theorem svcRun_seq_state (n k : Nat) (hk : 1 ≤ k) :
    (svcRun (svcStart (n + 1)) (seqSchedule k)).initialized = true ∧
    (svcRun (svcStart (n + 1)) (seqSchedule k)).loads = 1 := by
  induction k with
  | zero => omega
  | succ k ih =>
    have hsplit : seqSchedule (k + 1) =
        seqSchedule k ++ [SvcEvent.start k, SvcEvent.finish k] := by
      simp [seqSchedule, List.range_succ]
    by_cases hk1 : 1 ≤ k
    · have h := ih hk1
      have hrun : svcRun (svcStart (n + 1)) (seqSchedule (k + 1)) =
          svcRun (svcRun (svcStart (n + 1)) (seqSchedule k))
            [SvcEvent.start k, SvcEvent.finish k] := by
        rw [hsplit]; exact List.foldl_append _ _ _ _
      rw [hrun]
      have h2 := svcRun_of_initialized (svcRun (svcStart (n + 1)) (seqSchedule k))
        [SvcEvent.start k, SvcEvent.finish k] h.1
      exact ⟨h2.2, h2.1.trans h.2⟩
    · have hk0 : k = 0 := by omega
      subst hk0
      have hsched : seqSchedule 1 = [SvcEvent.start 0, SvcEvent.finish 0] := rfl
      have h1 : svcStep (svcStart (n + 1)) (SvcEvent.start 0) =
          SvcState.mk false 1 (TaskPhase.loading :: List.replicate n TaskPhase.idle) := by
        simp [svcStep, svcStart, List.replicate_succ]
      have h2 : svcStep
          (SvcState.mk false 1 (TaskPhase.loading :: List.replicate n TaskPhase.idle))
          (SvcEvent.finish 0) =
          SvcState.mk true 1 (TaskPhase.done :: List.replicate n TaskPhase.idle) := by
        simp [svcStep]
      have hfull : svcRun (svcStart (n + 1)) (seqSchedule 1) =
          SvcState.mk true 1 (TaskPhase.done :: List.replicate n TaskPhase.idle) := by
        rw [hsched]
        show svcStep (svcStep (svcStart (n + 1)) (SvcEvent.start 0)) (SvcEvent.finish 0) = _
        rw [h1, h2]
      rw [hfull]
      exact ⟨rfl, rfl⟩

/-- Claim C9 (amended): initialization is lazy and idempotent for *serialized*
callers — once a load has completed, `initialized` is set and no later caller
ever triggers another load, and a fully serialized schedule performs at most
one load in total — but concurrent callers that all pass the `initialized`
check before the first load completes each trigger their own load (no shared
in-flight initialization; see the counterexample). -/
theorem initialization_idempotent_when_serialized :
    (∀ (st : SvcState) (es : List SvcEvent), st.initialized = true →
      (svcRun st es).loads = st.loads ∧ (svcRun st es).initialized = true) ∧
    (∀ n k : Nat, (svcRun (svcStart n) (seqSchedule k)).loads ≤ 1) := by
  refine ⟨svcRun_of_initialized, fun n k => ?_⟩
  cases n with
  | zero =>
    rw [svcRun_no_tasks (svcStart 0) (seqSchedule k) (by simp [svcStart])]
    simp [svcStart]
  | succ n =>
    cases k with
    | zero => simp [seqSchedule, svcRun, svcStart]
    | succ k =>
      exact le_of_eq (svcRun_seq_state n (k + 1) (by omega)).2

theorem initialization_idempotent_when_serialized_witness :
    (SvcState.mk true 0 [TaskPhase.idle]).initialized = true ∧
    (svcRun (SvcState.mk true 0 [TaskPhase.idle]) [SvcEvent.start 0]).loads = 0 ∧
    (svcRun (SvcState.mk true 0 [TaskPhase.idle]) [SvcEvent.start 0]).initialized
      = true := by
  have h :=
    initialization_idempotent_when_serialized.1
      (SvcState.mk true 0 [TaskPhase.idle]) [SvcEvent.start 0] rfl
  exact ⟨rfl, h.1, h.2⟩

/-! ## Claim C4: round-trip persistence -/

theorem decodeRealList_encode (xs : List ℝ) :
    decodeRealList (xs.map JsonVal.rnum) = some xs := by
  induction xs with
  | nil => rfl
  | cons x rest ih => simp [decodeRealList, decodeRealVal, ih]

theorem decodeMetadata_encodeMetadata (m : StoredMetadata) :
    decodeMetadata (encodeMetadata m) = some m := by
  obtain ⟨src, pg, ci, tc, dt, ti, fs, fn⟩ := m
  cases dt <;> cases ti <;> cases fs <;> cases fn <;>
    simp [encodeMetadata, decodeMetadata, encodeOptStr, encodeOptInt, decodeOptField,
      lookup_cons, decodeStrVal, decodeIntVal]

theorem decodeDocument_encodeDocument (d : StoredDocument) :
    decodeDocument (encodeDocument d) = some d := by
  obtain ⟨i, co, e, m⟩ := d
  simp [encodeDocument, decodeDocument, lookup_cons, decodeStrVal,
    decodeRealList_encode, decodeMetadata_encodeMetadata]

theorem decodeCollection_encodeCollection (coll : List StoredDocument) :
    decodeCollection (encodeCollection coll) = some coll := by
  induction coll with
  | nil => rfl
  | cons d rest ih =>
    simp only [encodeCollection, decodeCollection, List.map_cons] at ih ⊢
    simp [decodeDocList, decodeDocument_encodeDocument, ih]

theorem lookup_none_of_not_mem_keys {α : Type} (m : List (String × α)) (k : String)
    (h : k ∉ m.map Prod.fst) : List.lookup k m = none := by
  induction m with
  | nil => rfl
  | cons p rest ih =>
    cases p with
    | mk k0 v0 =>
      simp only [List.map_cons, List.mem_cons] at h
      push_neg at h
      rw [lookup_cons, if_neg h.1]
      exact ih h.2

theorem loadedCollections_cons (k0 : String) (j : JsonVal)
    (rest : List (String × JsonVal)) :
    loadedCollections ((k0, j) :: rest) =
      match decodeCollection j with
      | none => loadedCollections rest
      | some coll => (k0, coll) :: loadedCollections rest := by
  cases hd : decodeCollection j <;>
    simp [loadedCollections, List.filterMap_cons, hd]

theorem mem_keys_loadedCollections (disk : List (String × JsonVal)) (k : String)
    (h : k ∈ (loadedCollections disk).map Prod.fst) : k ∈ disk.map Prod.fst := by
  induction disk with
  | nil => simpa [loadedCollections] using h
  | cons p rest ih =>
    cases p with
    | mk k0 j =>
      rw [loadedCollections_cons] at h
      cases hd : decodeCollection j with
      | none =>
        rw [hd] at h
        exact List.mem_cons_of_mem _ (ih h)
      | some coll =>
        rw [hd] at h
        simp only [List.map_cons, List.mem_cons] at h ⊢
        rcases h with h | h
        · exact Or.inl h
        · exact Or.inr (ih h)

theorem lookup_loadedCollections (disk : List (String × JsonVal)) (k : String)
    (h : (disk.map Prod.fst).Nodup) :
    List.lookup k (loadedCollections disk) =
      (List.lookup k disk).bind decodeCollection := by
  induction disk with
  | nil => rfl
  | cons p rest ih =>
    cases p with
    | mk k0 j =>
      simp only [List.map_cons, List.nodup_cons] at h
      rw [loadedCollections_cons]
      by_cases hk : k = k0
      · subst hk
        cases hd : decodeCollection j with
        | none =>
          rw [lookup_cons, if_pos rfl, Option.some_bind, hd]
          refine lookup_none_of_not_mem_keys _ _ (fun hmem => h.1 ?_)
          exact mem_keys_loadedCollections rest k hmem
        | some coll =>
          rw [lookup_cons, if_pos rfl, lookup_cons, if_pos rfl, Option.some_bind, hd]
      · have hrest : List.lookup k ((k0, j) :: rest) = List.lookup k rest := by
          rw [lookup_cons, if_neg hk]
        cases hd : decodeCollection j with
        | none => rw [hrest]; exact ih h.2
        | some coll =>
          rw [lookup_cons, if_neg hk, hrest]
          exact ih h.2

theorem mem_keys_setKey {α : Type} (m : List (String × α)) (k a : String) (v : α) :
    a ∈ (setKey m k v).map Prod.fst ↔ a ∈ m.map Prod.fst ∨ a = k := by
  induction m with
  | nil => simp [setKey]
  | cons p rest ih =>
    cases p with
    | mk k0 v0 =>
      by_cases hp : k0 = k
      · subst hp
        simp [setKey]
        tauto
      · simp only [setKey, hp, if_false, List.map_cons, List.mem_cons, ih]
        tauto

theorem setKey_keys_nodup {α : Type} (m : List (String × α)) (k : String) (v : α)
    (h : (m.map Prod.fst).Nodup) : ((setKey m k v).map Prod.fst).Nodup := by
  induction m with
  | nil => simp [setKey]
  | cons p rest ih =>
    cases p with
    | mk k0 v0 =>
      simp only [List.map_cons, List.nodup_cons] at h
      by_cases hp : k0 = k
      · subst hp
        simp only [setKey, eq_self_iff_true, if_true, List.map_cons, List.nodup_cons]
        exact ⟨h.1, h.2⟩
      · simp only [setKey, hp, if_false, List.map_cons, List.nodup_cons]
        refine ⟨fun hmem => ?_, ih h.2⟩
        rcases (mem_keys_setKey rest k k0 v).mp hmem with hh | hh
        · exact h.1 hh
        · exact hp hh

theorem addDocuments_disk (db : VectorDB) (c : String)
    (chunks : List DocumentChunk) (embeddings : List (List ℝ)) :
    (addDocuments db c chunks embeddings).disk =
      setKey db.disk c
        (encodeCollection ((List.lookup c db.collections).getD [] ++
          List.zipWith mkStoredDocument chunks embeddings)) := by
  cases h : List.lookup c db.collections with
  | none =>
    simp only [addDocuments, saveCollectionToDisk, h, Option.isSome_none,
      Bool.false_eq_true, if_false, lookup_setKey_self, Option.getD_some,
      Option.getD_none, List.nil_append]
  | some coll =>
    simp only [addDocuments, saveCollectionToDisk, h, Option.isSome_some, if_true,
      lookup_setKey_self, Option.getD_some]

/-- Claim C4: `addDocuments` followed by a fresh load of the collection from
the persisted vector directory yields exactly the in-memory records — same
ids, contents, embeddings and metadata, in the same order.  (The JSON text
layer is modelled at the level of the value tree written by `JSON.stringify`
and read back by `JSON.parse`.) -/
theorem addDocuments_roundtrip (db : VectorDB) (c : String)
    (chunks : List DocumentChunk) (embeddings : List (List ℝ))
    (hkeys : (db.disk.map Prod.fst).Nodup) :
    List.lookup c (loadedCollections (addDocuments db c chunks embeddings).disk) =
      List.lookup c (addDocuments db c chunks embeddings).collections := by
  obtain ⟨hmem, _⟩ := addDocuments_appends db c chunks embeddings
  rw [hmem, addDocuments_disk db c chunks embeddings]
  rw [lookup_loadedCollections _ _ (setKey_keys_nodup db.disk c _ hkeys)]
  rw [lookup_setKey_self, Option.some_bind, decodeCollection_encodeCollection]

theorem addDocuments_roundtrip_witness :
    (((VectorDB.mk [] []).disk.map Prod.fst).Nodup) ∧
    List.lookup "t"
        (loadedCollections
          (addDocuments (VectorDB.mk [] []) "t"
            [DocumentChunk.mk "id0" "hello"
              (ChunkMetadata.mk "s" none 0 1 none none none none)]
            [[(1 : ℝ), 0]]).disk) =
      List.lookup "t"
        (addDocuments (VectorDB.mk [] []) "t"
          [DocumentChunk.mk "id0" "hello"
            (ChunkMetadata.mk "s" none 0 1 none none none none)]
          [[(1 : ℝ), 0]]).collections := by
  have h : (((VectorDB.mk [] []).disk).map Prod.fst).Nodup := by simp
  exact ⟨h, addDocuments_roundtrip (VectorDB.mk [] []) "t" _ _ h⟩

/-! ## Claim C5: query = threshold-filtered search results (corrected)

Two deviations from the claim as stated: (a) `RAGService.query` consults the
search-response cache first (rag-service.ts 176-183) and returns the cached
response — its sources need not match a fresh search; (b) when no result
passes the threshold the answer is the fixed fallback string
`'No relevant content found in the documents.'` (rag-service.ts 209), not the
(empty) concatenation of matched passages. -/

theorem sourceHeader_ne_empty (r : SearchResult) : sourceHeader r ≠ "" := by
  intro h
  have hd := congrArg String.data h
  simp [sourceHeader, String.data_append] at hd

theorem jsJoin_map_ne_empty (rs : List SearchResult) (hne : rs ≠ []) :
    jsJoin "\n\n---\n\n" (rs.map sourceHeader) ≠ "" := by
  match rs with
  | [] => exact absurd rfl hne
  | [r] =>
    simpa [jsJoin] using sourceHeader_ne_empty r
  | r :: r2 :: rest =>
    intro h
    have hd := congrArg String.data h
    simp only [List.map_cons, jsJoin, String.data_append] at hd
    rcases List.append_eq_nil.mp (List.append_eq_nil.mp hd).1 with ⟨h1, _⟩
    exact sourceHeader_ne_empty r (by
      have : (sourceHeader r).data = ("" : String).data := h1
      exact congrArg String.mk this)

/-- Claim C5 (amended): for every query request that misses the
search-response cache, the returned sources are exactly the search results —
for the embedded question vector and the effective limit — whose similarity
score is at least the threshold (the caller's when given, otherwise the
configured default), in ranked order; the answer is the concatenation of those
matched passages with their source/page headers when at least one passage
matched, and the fixed fallback message otherwise.  No generative
summarization is performed. -/
theorem query_threshold_and_answer (extractor : String → List ℝ)
    (cache : CacheState) (db : VectorDB) (req : QueryRequest)
    (hmiss : getSearchResult cache req.question req.collection = none) :
    (query extractor cache db req).1.sources =
      (search db req.collection
          (generateQueryEmbedding extractor cache req.question).1
          (effLimit req.limit)).filter
        (fun r => decide (req.threshold.getD cfgSimilarityThreshold ≤ r.score)) ∧
    (query extractor cache db req).1.answer =
      (if ((search db req.collection
            (generateQueryEmbedding extractor cache req.question).1
            (effLimit req.limit)).filter
          (fun r => decide (req.threshold.getD cfgSimilarityThreshold ≤ r.score))).isEmpty
       then "No relevant content found in the documents."
       else
         jsJoin "\n\n---\n\n"
           (((search db req.collection
               (generateQueryEmbedding extractor cache req.question).1
               (effLimit req.limit)).filter
             (fun r => decide (req.threshold.getD cfgSimilarityThreshold ≤ r.score))).map
             sourceHeader)) := by
  constructor
  · simp only [query, hmiss]
  · simp only [query, hmiss]
    by_cases hf : (search db req.collection
        (generateQueryEmbedding extractor cache req.question).1
        (effLimit req.limit)).filter
      (fun r => decide (req.threshold.getD cfgSimilarityThreshold ≤ r.score)) = []
    · simp [hf, jsJoin]
    · rw [if_neg (jsJoin_map_ne_empty _ hf)]
      have hne : ((search db req.collection
          (generateQueryEmbedding extractor cache req.question).1
          (effLimit req.limit)).filter
        (fun r => decide (req.threshold.getD cfgSimilarityThreshold ≤ r.score))).isEmpty
          = false := by
        cases hcase : (search db req.collection
            (generateQueryEmbedding extractor cache req.question).1
            (effLimit req.limit)).filter
          (fun r => decide (req.threshold.getD cfgSimilarityThreshold ≤ r.score)) with
        | nil => exact absurd hcase hf
        | cons a l => simp [hcase, List.isEmpty]
      rw [hne]
      simp

theorem query_threshold_and_answer_witness :
    getSearchResult emptyCache "q2" "c" = none ∧
    (query (fun _ => [(1 : ℝ)]) emptyCache (VectorDB.mk [] [])
        (QueryRequest.mk "q2" "c" none none)).1.sources =
      (search (VectorDB.mk [] []) "c"
          ((generateQueryEmbedding (fun _ => [(1 : ℝ)]) emptyCache "q2").1)
          (effLimit none)).filter
        (fun r => decide ((none : Option ℝ).getD cfgSimilarityThreshold ≤ r.score)) := by
  have hmiss : getSearchResult emptyCache "q2" "c" = none := rfl
  exact ⟨hmiss,
    (query_threshold_and_answer (fun _ => [(1 : ℝ)]) emptyCache (VectorDB.mk [] [])
      (QueryRequest.mk "q2" "c" none none) hmiss).1⟩

theorem query_claim_counterexample :
    (query (fun _ => []) emptyCache (VectorDB.mk [] [])
        (QueryRequest.mk "q" "c" none none)).1.answer ≠
      jsJoin "\n\n---\n\n"
        (((search (VectorDB.mk [] []) "c"
            ((generateQueryEmbedding (fun _ => []) emptyCache "q").1)
            (effLimit none)).filter
          (fun r => decide (cfgSimilarityThreshold ≤ r.score))).map sourceHeader) := by
  have hmiss : getSearchResult emptyCache "q" "c" = none := rfl
  have hsearch : search (VectorDB.mk [] []) "c"
      ((generateQueryEmbedding (fun _ => []) emptyCache "q").1) (effLimit none) = [] := by
    simp [search]
  have hq : (query (fun _ => []) emptyCache (VectorDB.mk [] [])
      (QueryRequest.mk "q" "c" none none)).1.answer =
      "No relevant content found in the documents." := by
    simp only [query, hmiss, hsearch, List.filter_nil, List.map_nil, jsJoin,
      eq_self_iff_true, if_true]
  rw [hq, hsearch]
  simp only [List.filter_nil, List.map_nil, jsJoin]
  decide

/-! ## Claim C3: generateEmbeddings length/order and cache interaction -/

theorem string_append_cancel_left (s a b : String) (h : s ++ a = s ++ b) : a = b := by
  have hd := congrArg String.data h
  simp only [String.data_append, List.append_right_inj] at hd
  cases a with
  | mk da =>
    cases b with
    | mk db => exact congrArg String.mk hd

theorem getEmbedding_setEmbedding (c : CacheState) (t t' : String) (v : List ℝ) :
    getEmbedding (setEmbedding c t v) t' =
      if hashString t' = hashString t then some v else getEmbedding c t' := by
  by_cases h : hashString t' = hashString t
  · simp only [getEmbedding, setEmbedding, h, if_pos rfl]
  · have hk : ("embedding:" ++ hashString t' : String) ≠ "embedding:" ++ hashString t :=
      fun hc => h (string_append_cancel_left _ _ _ hc)
    simp only [getEmbedding, setEmbedding, if_neg h]
    simp [hk]

theorem getEmbedding_congr_hash (c : CacheState) (u t : String)
    (h : hashString u = hashString t) : getEmbedding c u = getEmbedding c t := by
  simp [getEmbedding, h]

theorem processBatch_fst (extractor : String → List ℝ) (c : CacheState)
    (b : List String) :
    (processBatch extractor c b).1 =
      b.map (fun t => (getEmbedding c t).getD (extractor t)) := rfl

theorem foldl_cacheStep_preserves_some (extractor : String → List ℝ) (c : CacheState)
    (t : String) (v : List ℝ) (h : getEmbedding c t = some v) :
    ∀ (b : List String) (c' : CacheState), getEmbedding c' t = some v →
      getEmbedding
        (b.foldl
          (fun cc u =>
            if (getEmbedding c u).isSome then cc else setEmbedding cc u (extractor u))
          c') t = some v := by
  intro b
  induction b with
  | nil => intro c' h'; exact h'
  | cons u rest ih =>
    intro c' h'
    show getEmbedding
      (rest.foldl _
        (if (getEmbedding c u).isSome then c' else setEmbedding c' u (extractor u))) t
      = some v
    by_cases hu : (getEmbedding c u).isSome
    · rw [if_pos hu]; exact ih c' h'
    · rw [if_neg hu]
      refine ih _ ?_
      rw [getEmbedding_setEmbedding]
      by_cases hh : hashString t = hashString u
      · exfalso
        rw [getEmbedding_congr_hash c u t hh.symm, h] at hu
        exact hu rfl
      · rw [if_neg hh]; exact h'

theorem processBatch_preserves_some (extractor : String → List ℝ) (c : CacheState)
    (b : List String) (t : String) (v : List ℝ) (h : getEmbedding c t = some v) :
    getEmbedding (processBatch extractor c b).2 t = some v :=
  foldl_cacheStep_preserves_some extractor c t v h b c h

theorem foldl_cacheStep_writes (extractor : String → List ℝ) (c : CacheState)
    (t : String) (hmiss : getEmbedding c t = none) :
    ∀ (b : List String),
      (∀ u ∈ b, hashString u = hashString t → u = t) →
      ∀ (c' : CacheState),
        ((getEmbedding c' t = none → t ∈ b →
          getEmbedding
            (b.foldl
              (fun cc u =>
                if (getEmbedding c u).isSome then cc else setEmbedding cc u (extractor u))
              c') t = some (extractor t)) ∧
        (getEmbedding c' t = some (extractor t) →
          getEmbedding
            (b.foldl
              (fun cc u =>
                if (getEmbedding c u).isSome then cc else setEmbedding cc u (extractor u))
              c') t = some (extractor t))) := by
  intro b
  induction b with
  | nil =>
    intro _ c'
    exact ⟨fun _ hmem => absurd hmem (List.not_mem_nil t), fun h' => h'⟩
  | cons u rest ih =>
    intro hinj c'
    have hinjrest : ∀ w ∈ rest, hashString w = hashString t → w = t :=
      fun w hw => hinj w (List.mem_cons_of_mem u hw)
    constructor
    · intro h' hmem
      show getEmbedding
        (rest.foldl _
          (if (getEmbedding c u).isSome then c' else setEmbedding c' u (extractor u))) t
        = some (extractor t)
      by_cases hu : (getEmbedding c u).isSome
      · rw [if_pos hu]
        have hne : t ≠ u := by
          intro he
          rw [← he, hmiss] at hu
          simp at hu
        have hmem' : t ∈ rest := by
          rcases List.mem_cons.mp hmem with he | hm
          · exact absurd he hne
          · exact hm
        exact (ih hinjrest c').1 h' hmem'
      · rw [if_neg hu]
        by_cases hh : hashString t = hashString u
        · have hut : u = t := hinj u (List.mem_cons_self u rest) hh.symm
          subst hut
          refine (ih hinjrest _).2 ?_
          rw [getEmbedding_setEmbedding, if_pos rfl]
        · have hne : t ≠ u := fun he => hh (by rw [he])
          have hmem' : t ∈ rest := by
            rcases List.mem_cons.mp hmem with he | hm
            · exact absurd he hne
            · exact hm
          refine (ih hinjrest _).1 ?_ hmem'
          rw [getEmbedding_setEmbedding, if_neg hh]
          exact h'
    · intro h'
      show getEmbedding
        (rest.foldl _
          (if (getEmbedding c u).isSome then c' else setEmbedding c' u (extractor u))) t
        = some (extractor t)
      by_cases hu : (getEmbedding c u).isSome
      · rw [if_pos hu]; exact (ih hinjrest c').2 h'
      · rw [if_neg hu]
        by_cases hh : hashString t = hashString u
        · have hut : u = t := hinj u (List.mem_cons_self u rest) hh.symm
          subst hut
          refine (ih hinjrest _).2 ?_
          rw [getEmbedding_setEmbedding, if_pos rfl]
        · refine (ih hinjrest _).2 ?_
          rw [getEmbedding_setEmbedding, if_neg hh]
          exact h'

theorem processBatch_writes (extractor : String → List ℝ) (c : CacheState)
    (b : List String) (t : String) (ht : t ∈ b) (hmiss : getEmbedding c t = none)
    (hinj : ∀ u ∈ b, hashString u = hashString t → u = t) :
    getEmbedding (processBatch extractor c b).2 t = some (extractor t) :=
  (foldl_cacheStep_writes extractor c t hmiss b hinj c).1 hmiss ht

theorem foldl_cacheStep_none_or_write (extractor : String → List ℝ) (c : CacheState)
    (t : String) (hmiss : getEmbedding c t = none) :
    ∀ (b : List String),
      (∀ u ∈ b, hashString u = hashString t → u = t) →
      ∀ (c' : CacheState),
        (getEmbedding c' t = none ∨ getEmbedding c' t = some (extractor t)) →
        (getEmbedding
            (b.foldl
              (fun cc u =>
                if (getEmbedding c u).isSome then cc else setEmbedding cc u (extractor u))
              c') t = none ∨
          getEmbedding
            (b.foldl
              (fun cc u =>
                if (getEmbedding c u).isSome then cc else setEmbedding cc u (extractor u))
              c') t = some (extractor t)) := by
  intro b
  induction b with
  | nil => intro _ c' h'; exact h'
  | cons u rest ih =>
    intro hinj c' h'
    have hinjrest : ∀ w ∈ rest, hashString w = hashString t → w = t :=
      fun w hw => hinj w (List.mem_cons_of_mem u hw)
    simp only [List.foldl_cons]
    by_cases hu : (getEmbedding c u).isSome
    · rw [if_pos hu]; exact ih hinjrest c' h'
    · rw [if_neg hu]
      refine ih hinjrest _ ?_
      by_cases hh : hashString t = hashString u
      · have hut : u = t := hinj u (List.mem_cons_self u rest) hh.symm
        subst hut
        right
        rw [getEmbedding_setEmbedding, if_pos rfl]
      · rw [getEmbedding_setEmbedding, if_neg hh]
        exact h'

theorem processBatch_effVal (extractor : String → List ℝ) (c : CacheState)
    (b : List String) (t : String)
    (hinj : ∀ u ∈ b, hashString u = hashString t → u = t) :
    (getEmbedding (processBatch extractor c b).2 t).getD (extractor t) =
      (getEmbedding c t).getD (extractor t) := by
  cases h : getEmbedding c t with
  | some v => rw [processBatch_preserves_some extractor c b t v h]
  | none =>
    rcases foldl_cacheStep_none_or_write extractor c t h b hinj c (Or.inl h) with
      h2 | h2
    · show (getEmbedding (b.foldl _ c) t).getD (extractor t) = _
      rw [h2]
    · show (getEmbedding (b.foldl _ c) t).getD (extractor t) = _
      rw [h2]
      simp

theorem runBatches_preserves_some (extractor : String → List ℝ) (t : String)
    (v : List ℝ) :
    ∀ (bs : List (List String)) (acc : List (List ℝ)) (c' : CacheState),
      getEmbedding c' t = some v →
      getEmbedding
        ((bs.foldl
          (fun a batch =>
            ((a.1 ++ (processBatch extractor a.2 batch).1 : List (List ℝ)),
              (processBatch extractor a.2 batch).2))
          (acc, c')).2) t = some v := by
  intro bs
  induction bs with
  | nil => intro acc c' h'; exact h'
  | cons b rest ih =>
    intro acc c' h'
    simp only [List.foldl_cons]
    exact ih _ _ (processBatch_preserves_some extractor c' b t v h')

theorem runBatches_spec (extractor : String → List ℝ) :
    ∀ (bs : List (List String)) (c : CacheState) (acc : List (List ℝ)),
      (∀ t1 ∈ bs.flatten, ∀ t2 ∈ bs.flatten, hashString t1 = hashString t2 → t1 = t2) →
      ((bs.foldl
          (fun a batch =>
            ((a.1 ++ (processBatch extractor a.2 batch).1 : List (List ℝ)),
              (processBatch extractor a.2 batch).2))
          (acc, c)).1 =
        acc ++ bs.flatten.map (fun t => (getEmbedding c t).getD (extractor t))) ∧
      ∀ t ∈ bs.flatten,
        getEmbedding
          ((bs.foldl
            (fun a batch =>
              ((a.1 ++ (processBatch extractor a.2 batch).1 : List (List ℝ)),
                (processBatch extractor a.2 batch).2))
            (acc, c)).2) t = some ((getEmbedding c t).getD (extractor t)) := by
  intro bs
  induction bs with
  | nil =>
    intro c acc _
    exact ⟨by simp, fun t ht => absurd ht (List.not_mem_nil t)⟩
  | cons b rest ih =>
    intro c acc hinj
    have hb : ∀ u ∈ b, u ∈ (b :: rest).flatten := by
      intro u hu
      simp [List.flatten_cons, hu]
    have hr : ∀ u ∈ rest.flatten, u ∈ (b :: rest).flatten := by
      intro u hu
      simp [List.flatten_cons, hu]
    have hinjrest : ∀ t1 ∈ rest.flatten, ∀ t2 ∈ rest.flatten,
        hashString t1 = hashString t2 → t1 = t2 :=
      fun t1 h1 t2 h2 => hinj t1 (hr t1 h1) t2 (hr t2 h2)
    have heff : ∀ u ∈ rest.flatten,
        (getEmbedding (processBatch extractor c b).2 u).getD (extractor u) =
          (getEmbedding c u).getD (extractor u) := by
      intro u hu
      refine processBatch_effVal extractor c b u ?_
      intro w hw hh
      exact hinj w (hb w hw) u (hr u hu) hh
    obtain ⟨ihfst, ihsnd⟩ :=
      ih (processBatch extractor c b).2 (acc ++ (processBatch extractor c b).1)
        hinjrest
    constructor
    · simp only [List.foldl_cons]
      rw [ihfst, processBatch_fst]
      rw [List.map_congr_left heff]
      simp [List.flatten_cons, List.append_assoc]
    · intro t ht
      simp only [List.flatten_cons, List.mem_append] at ht
      simp only [List.foldl_cons]
      rcases ht with htb | htr
      · cases hc : getEmbedding c t with
        | some v =>
          have h1 : getEmbedding (processBatch extractor c b).2 t = some v :=
            processBatch_preserves_some extractor c b t v hc
          have h2 := runBatches_preserves_some extractor t v rest
            (acc ++ (processBatch extractor c b).1) _ h1
          simpa using h2
        | none =>
          have h1 : getEmbedding (processBatch extractor c b).2 t = some (extractor t) := by
            refine processBatch_writes extractor c b t htb hc ?_
            intro w hw hh
            exact hinj w (hb w hw) t (hb t htb) hh
          have h2 := runBatches_preserves_some extractor t (extractor t) rest
            (acc ++ (processBatch extractor c b).1) _ h1
          simpa using h2
      · rw [← heff t htr]
        exact ihsnd t htr

theorem toBatches_flatten {α : Type} (l : List α) : (toBatches l).flatten = l := by
  have H : ∀ (n : Nat) (l : List α), l.length ≤ n → (toBatches l).flatten = l := by
    intro n
    induction n with
    | zero =>
      intro l hl
      have : l = [] := List.eq_nil_of_length_eq_zero (Nat.le_zero.mp hl)
      subst this
      simp [toBatches]
    | succ n ihn =>
      intro l hl
      cases l with
      | nil => simp [toBatches]
      | cons x rest =>
        rw [toBatches]
        rw [List.flatten_cons]
        rw [ihn ((x :: rest).drop 50)
          (by simp only [List.length_drop, List.length_cons] at hl ⊢; omega)]
        exact List.take_append_drop 50 (x :: rest)
  exact H l.length l (le_refl _)

/-- Claim C3: `generateEmbeddings` returns one vector per input text, in input
order: the cached vector for the text when the cache holds one, otherwise the
extractor's output — and every input text's vector is in the cache when the
call returns.  Hypothesis: the rolling string hash is injective on the input
texts (colliding texts share one cache slot by design; spec §4.2 accepts
this). -/
theorem generateEmbeddings_spec (extractor : String → List ℝ) (cache : CacheState)
    (texts : List String)
    (hinj : ∀ t1 ∈ texts, ∀ t2 ∈ texts, hashString t1 = hashString t2 → t1 = t2) :
    (generateEmbeddings extractor cache texts).1 =
      texts.map (fun t => (getEmbedding cache t).getD (extractor t)) ∧
    ∀ t ∈ texts,
      getEmbedding (generateEmbeddings extractor cache texts).2 t =
        some ((getEmbedding cache t).getD (extractor t)) := by
  have hj := toBatches_flatten texts
  have H := runBatches_spec extractor (toBatches texts) cache [] (by rw [hj]; exact hinj)
  rw [hj] at H
  unfold generateEmbeddings
  exact ⟨by simpa using H.1, H.2⟩

theorem generateEmbeddings_spec_witness :
    (∀ t1 ∈ ["a", "b"], ∀ t2 ∈ ["a", "b"], hashString t1 = hashString t2 → t1 = t2) ∧
    (generateEmbeddings (fun _ => [(1 : ℝ)]) emptyCache ["a", "b"]).1 =
      (["a", "b"]).map
        (fun t => (getEmbedding emptyCache t).getD ((fun _ => [(1 : ℝ)]) t)) := by
  have hinj : ∀ t1 ∈ ["a", "b"], ∀ t2 ∈ ["a", "b"],
      hashString t1 = hashString t2 → t1 = t2 := by decide
  exact ⟨hinj,
    (generateEmbeddings_spec (fun _ => [(1 : ℝ)]) emptyCache ["a", "b"] hinj).1⟩

/-! ## Claim C1: search ranks by cosine similarity -/

theorem dotProduct_eq_sum :
    ∀ (a b : List ℝ), a.length = b.length →
      dotProduct a b = ∑ i ∈ Finset.range a.length, a.getD i 0 * b.getD i 0
  | [], [] => by simp [dotProduct]
  | [], y :: ys => by intro h; simp at h
  | x :: xs, [] => by intro h; simp at h
  | x :: xs, y :: ys => by
    intro h
    have hlen : xs.length = ys.length := by
      simpa using h
    show x * y + dotProduct xs ys = _
    rw [List.length_cons, Finset.sum_range_succ']
    simp only [List.getD_cons_succ, List.getD_cons_zero]
    rw [dotProduct_eq_sum xs ys hlen]
    ring

theorem dotProduct_sq_le (a b : List ℝ) (h : a.length = b.length) :
    (dotProduct a b) ^ 2 ≤ dotProduct a a * dotProduct b b := by
  rw [dotProduct_eq_sum a b h, dotProduct_eq_sum a a rfl, dotProduct_eq_sum b b rfl, ← h]
  have hcs := Finset.sum_mul_sq_le_sq_mul_sq (Finset.range a.length)
    (fun i => a.getD i 0) (fun i => b.getD i 0)
  calc (∑ i ∈ Finset.range a.length, a.getD i 0 * b.getD i 0) ^ 2
      ≤ (∑ i ∈ Finset.range a.length, a.getD i 0 ^ 2) *
          ∑ i ∈ Finset.range a.length, b.getD i 0 ^ 2 := hcs
    _ = (∑ i ∈ Finset.range a.length, a.getD i 0 * a.getD i 0) *
          ∑ i ∈ Finset.range a.length, b.getD i 0 * b.getD i 0 := by
        simp [sq]

theorem cosineSimilarity_le_one (a b : List ℝ) : cosineSimilarity a b ≤ 1 := by
  unfold cosineSimilarity
  by_cases hl : a.length ≠ b.length
  · simp [hl]
  · simp only [hl, if_false]
    by_cases hz : dotProduct a a = 0 ∨ dotProduct b b = 0
    · simp [hz]
    · simp only [hz, if_false]
      push_neg at hz
      push_neg at hl
      have hA : 0 < dotProduct a a :=
        lt_of_le_of_ne (dotProduct_self_nonneg a) (Ne.symm hz.1)
      have hB : 0 < dotProduct b b :=
        lt_of_le_of_ne (dotProduct_self_nonneg b) (Ne.symm hz.2)
      have hden : 0 < Real.sqrt (dotProduct a a) * Real.sqrt (dotProduct b b) :=
        mul_pos (Real.sqrt_pos.mpr hA) (Real.sqrt_pos.mpr hB)
      rw [div_le_one hden]
      calc dotProduct a b ≤ |dotProduct a b| := le_abs_self _
        _ = Real.sqrt ((dotProduct a b) ^ 2) := (Real.sqrt_sq_eq_abs _).symm
        _ ≤ Real.sqrt (dotProduct a a * dotProduct b b) :=
            Real.sqrt_le_sqrt (dotProduct_sq_le a b hl)
        _ = Real.sqrt (dotProduct a a) * Real.sqrt (dotProduct b b) :=
            Real.sqrt_mul hA.le _

theorem cosineSimilarity_self (q : List ℝ) (h : dotProduct q q = 1) :
    cosineSimilarity q q = 1 := by
  unfold cosineSimilarity
  simp [h]

theorem filter_orderedInsert (c : ℝ) (x : Scored) (l : List Scored) :
    (List.orderedInsert scoreGE x l).filter (fun p => decide (p.1 = c)) =
      if x.1 = c then x :: l.filter (fun p => decide (p.1 = c))
      else l.filter (fun p => decide (p.1 = c)) := by
  induction l with
  | nil =>
    by_cases hx : x.1 = c <;> simp [List.orderedInsert, List.filter, hx]
  | cons y ys ih =>
    show (if scoreGE x y then x :: y :: ys else y :: List.orderedInsert scoreGE x ys).filter
        (fun p => decide (p.1 = c)) = _
    by_cases hxy : scoreGE x y
    · rw [if_pos hxy]
      by_cases hx : x.1 = c <;> simp [List.filter_cons, hx]
    · rw [if_neg hxy]
      have hlt : x.1 < y.1 := lt_of_not_le hxy
      by_cases hx : x.1 = c
      · have hy : ¬(y.1 = c) := by
          intro hyc
          rw [← hx] at hyc
          exact absurd hyc.symm (ne_of_lt hlt)
        rw [if_pos hx]
        rw [List.filter_cons, if_neg (by simp [hy]), List.filter_cons,
          if_neg (by simp [hy]), ih, if_pos hx]
      · rw [if_neg hx]
        by_cases hy : y.1 = c
        · rw [List.filter_cons, if_pos (by simp [hy]), List.filter_cons,
            if_pos (by simp [hy]), ih, if_neg hx]
        · rw [List.filter_cons, if_neg (by simp [hy]), List.filter_cons,
            if_neg (by simp [hy]), ih, if_neg hx]

theorem filter_insertionSort (c : ℝ) (l : List Scored) :
    (List.insertionSort scoreGE l).filter (fun p => decide (p.1 = c)) =
      l.filter (fun p => decide (p.1 = c)) := by
  induction l with
  | nil => rfl
  | cons x xs ih =>
    show (List.orderedInsert scoreGE x (List.insertionSort scoreGE xs)).filter
        (fun p => decide (p.1 = c)) = _
    rw [filter_orderedInsert]
    by_cases hx : x.1 = c
    · rw [if_pos hx, ih, List.filter_cons, if_pos (by simp [hx])]
    · rw [if_neg hx, ih, List.filter_cons, if_neg (by simp [hx])]

theorem sorted_head_max (x : Scored) (t : List Scored)
    (hs : List.Sorted scoreGE (x :: t)) :
    ∀ y ∈ x :: t, y.1 ≤ x.1 := by
  intro y hy
  rcases List.mem_cons.mp hy with he | hm
  · exact le_of_eq (congrArg Prod.fst he)
  · exact List.rel_of_sorted_cons hs y hm

/-- Claim C1: for a collection present in the store, `search` scores every
stored record by cosine similarity against the query vector, returns the first
`limit` entries of the unique stable descending sort of those scored records
(sorted by score; equal scores keep insertion order, expressed by the filter
equations), and when some stored vector is identical to a unit query vector
the first returned result carries score 1. -/
theorem search_ranks_by_cosine (db : VectorDB) (c : String) (q : List ℝ)
    (limit : Nat) (coll : List StoredDocument)
    (hcoll : List.lookup c db.collections = some coll) :
    (∃ sorted : List Scored,
      sorted.Perm (coll.map (fun d => (cosineSimilarity q d.embedding, d))) ∧
      List.Sorted scoreGE sorted ∧
      (∀ s : ℝ, sorted.filter (fun p => decide (p.1 = s)) =
        (coll.map (fun d => (cosineSimilarity q d.embedding, d))).filter
          (fun p => decide (p.1 = s))) ∧
      search db c q limit =
        (sorted.take limit).map
          (fun item => SearchResult.mk item.2.content item.1 item.2.metadata)) ∧
    (∀ d ∈ coll, d.embedding = q → dotProduct q q = 1 → 1 ≤ limit →
      ∃ r rest, search db c q limit = r :: rest ∧ r.score = 1) := by
  by_cases hnil : coll = []
  · subst hnil
    refine ⟨⟨[], by simp, List.sorted_nil, fun s => by simp, ?_⟩,
      fun d hd => absurd hd (List.not_mem_nil d)⟩
    simp [search, hcoll]
  · have hlen : ¬(coll.length = 0) := by
      simpa [List.length_eq_zero] using hnil
    have hsearch : search db c q limit =
        ((List.insertionSort scoreGE
            (coll.map (fun d => (cosineSimilarity q d.embedding, d)))).take limit).map
          (fun item => SearchResult.mk item.2.content item.1 item.2.metadata) := by
      simp [search, hcoll, hlen]
    refine ⟨⟨List.insertionSort scoreGE
        (coll.map (fun d => (cosineSimilarity q d.embedding, d))),
      List.perm_insertionSort scoreGE _, List.sorted_insertionSort scoreGE _,
      fun s => filter_insertionSort s _, hsearch⟩, ?_⟩
    intro d hd hde hq hlim
    have hcos : cosineSimilarity q d.embedding = 1 := by
      rw [hde]
      exact cosineSimilarity_self q hq
    have hmem : ((1 : ℝ), d) ∈ coll.map (fun d => (cosineSimilarity q d.embedding, d)) :=
      List.mem_map.mpr ⟨d, hd, by rw [hcos]⟩
    have hmem' : ((1 : ℝ), d) ∈ List.insertionSort scoreGE
        (coll.map (fun d => (cosineSimilarity q d.embedding, d))) :=
      ((List.perm_insertionSort scoreGE _).mem_iff).mpr hmem
    cases hsorted : List.insertionSort scoreGE
        (coll.map (fun d => (cosineSimilarity q d.embedding, d))) with
    | nil =>
      rw [hsorted] at hmem'
      exact absurd hmem' (List.not_mem_nil _)
    | cons hd0 tl0 =>
      have hs2 := List.sorted_insertionSort scoreGE
        (coll.map (fun d => (cosineSimilarity q d.embedding, d)))
      rw [hsorted] at hs2
      rw [hsorted] at hmem'
      have h1le : 1 ≤ hd0.1 := by
        simpa using sorted_head_max hd0 tl0 hs2 ((1 : ℝ), d) hmem'
      have hle1 : hd0.1 ≤ 1 := by
        have hh : hd0 ∈ coll.map (fun d => (cosineSimilarity q d.embedding, d)) := by
          refine ((List.perm_insertionSort scoreGE _).mem_iff).mp ?_
          rw [hsorted]
          exact List.mem_cons_self hd0 tl0
        rcases List.mem_map.mp hh with ⟨d', _, he⟩
        rw [← he]
        exact cosineSimilarity_le_one q d'.embedding
      obtain ⟨l, rfl⟩ : ∃ l, limit = l + 1 := ⟨limit - 1, by omega⟩
      refine ⟨SearchResult.mk hd0.2.content hd0.1 hd0.2.metadata,
        (tl0.take l).map
          (fun item => SearchResult.mk item.2.content item.1 item.2.metadata), ?_,
        le_antisymm hle1 h1le⟩
      rw [hsearch, hsorted, List.take_succ_cons, List.map_cons]

theorem search_ranks_by_cosine_witness :
    List.lookup "t"
        (VectorDB.mk
          [("t", [StoredDocument.mk "id0" "hello" [(1 : ℝ), 0, 0]
            (StoredMetadata.mk "s" 1 0 1 none none none none)])] []).collections =
      some [StoredDocument.mk "id0" "hello" [(1 : ℝ), 0, 0]
        (StoredMetadata.mk "s" 1 0 1 none none none none)] ∧
    StoredDocument.mk "id0" "hello" [(1 : ℝ), 0, 0]
        (StoredMetadata.mk "s" 1 0 1 none none none none) ∈
      [StoredDocument.mk "id0" "hello" [(1 : ℝ), 0, 0]
        (StoredMetadata.mk "s" 1 0 1 none none none none)] ∧
    (StoredDocument.mk "id0" "hello" [(1 : ℝ), 0, 0]
        (StoredMetadata.mk "s" 1 0 1 none none none none)).embedding = [(1 : ℝ), 0, 0] ∧
    dotProduct [(1 : ℝ), 0, 0] [(1 : ℝ), 0, 0] = 1 ∧
    1 ≤ 5 ∧
    ∃ r rest,
      search
        (VectorDB.mk
          [("t", [StoredDocument.mk "id0" "hello" [(1 : ℝ), 0, 0]
            (StoredMetadata.mk "s" 1 0 1 none none none none)])] [])
        "t" [(1 : ℝ), 0, 0] 5 = r :: rest ∧ r.score = 1 := by
  have hcoll : List.lookup "t"
      (VectorDB.mk
        [("t", [StoredDocument.mk "id0" "hello" [(1 : ℝ), 0, 0]
          (StoredMetadata.mk "s" 1 0 1 none none none none)])] []).collections =
      some [StoredDocument.mk "id0" "hello" [(1 : ℝ), 0, 0]
        (StoredMetadata.mk "s" 1 0 1 none none none none)] := by
    simp [lookup_cons]
  have hd : StoredDocument.mk "id0" "hello" [(1 : ℝ), 0, 0]
      (StoredMetadata.mk "s" 1 0 1 none none none none) ∈
      [StoredDocument.mk "id0" "hello" [(1 : ℝ), 0, 0]
        (StoredMetadata.mk "s" 1 0 1 none none none none)] := List.mem_singleton_self _
  have hq : dotProduct [(1 : ℝ), 0, 0] [(1 : ℝ), 0, 0] = 1 := by
    norm_num [dotProduct]
  exact ⟨hcoll, hd, rfl, hq, by norm_num,
    (search_ranks_by_cosine _ "t" [(1 : ℝ), 0, 0] 5 _ hcoll).2 _ hd rfl hq (by norm_num)⟩

/-! ## Claim C2: the overlap invariant of the chunker -/

theorem dropWhile_append_all (w y : List Char) (h : w.all isWS) :
    (w ++ y).dropWhile isWS = y.dropWhile isWS := by
  induction w with
  | nil => rfl
  | cons c cs ih =>
    simp only [List.all_cons, Bool.and_eq_true] at h
    simp only [List.cons_append, List.dropWhile_cons, h.1, if_true]
    exact ih h.2

theorem dropWhile_append_exists (x y : List Char)
    (h : ∃ a ∈ x, isWS a = false) :
    (x ++ y).dropWhile isWS = x.dropWhile isWS ++ y := by
  induction x with
  | nil =>
    rcases h with ⟨a, ha, _⟩
    exact absurd ha (List.not_mem_nil a)
  | cons c cs ih =>
    by_cases hc : isWS c
    · have h' : ∃ a ∈ cs, isWS a = false := by
        rcases h with ⟨a, ha, hwa⟩
        rcases List.mem_cons.mp ha with he | hm
        · subst he; rw [hwa] at hc; exact absurd hc (by simp)
        · exact ⟨a, hm, hwa⟩
      simp only [List.cons_append, List.dropWhile_cons, hc, if_true]
      exact ih h'
    · simp [List.cons_append, List.dropWhile_cons, hc]

theorem dropWhile_head_false (l : List Char) (c : Char) (rest : List Char)
    (h : l.dropWhile isWS = c :: rest) : isWS c = false := by
  induction l with
  | nil => simp at h
  | cons x xs ih =>
    by_cases hx : isWS x
    · rw [List.dropWhile_cons, if_pos hx] at h
      exact ih h
    · rw [List.dropWhile_cons, if_neg hx] at h
      injection h with h1 _
      subst h1
      simpa using hx

theorem takeWhile_all_isWS (l : List Char) : (l.takeWhile isWS).all isWS := by
  induction l with
  | nil => rfl
  | cons c cs ih =>
    by_cases hc : isWS c
    · simp [List.takeWhile_cons, hc, ih]
    · simp [List.takeWhile_cons, hc]

theorem trimRightChars_decomp (l : List Char) :
    ∃ w2, l = trimRightChars l ++ w2 ∧ w2.all isWS := by
  refine ⟨(l.reverse.takeWhile isWS).reverse, ?_, ?_⟩
  · calc l = l.reverse.reverse := (List.reverse_reverse l).symm
      _ = (l.reverse.takeWhile isWS ++ l.reverse.dropWhile isWS).reverse := by
          rw [List.takeWhile_append_dropWhile]
      _ = (l.reverse.dropWhile isWS).reverse ++ (l.reverse.takeWhile isWS).reverse := by
          rw [List.reverse_append]
      _ = trimRightChars l ++ (l.reverse.takeWhile isWS).reverse := rfl
  · rw [List.all_eq_true]
    intro c hc
    rw [List.mem_reverse] at hc
    have h := takeWhile_all_isWS l.reverse
    rw [List.all_eq_true] at h
    exact h c hc

theorem trimChars_decomp (l : List Char) :
    ∃ w1 w2, l = w1 ++ trimChars l ++ w2 ∧ w1.all isWS ∧ w2.all isWS := by
  obtain ⟨w2, h2, hw2⟩ := trimRightChars_decomp (l.dropWhile isWS)
  refine ⟨l.takeWhile isWS, w2, ?_, takeWhile_all_isWS l, hw2⟩
  calc l = l.takeWhile isWS ++ l.dropWhile isWS :=
        (List.takeWhile_append_dropWhile _ _).symm
    _ = l.takeWhile isWS ++ (trimRightChars (l.dropWhile isWS) ++ w2) := by
        rw [← h2]
    _ = l.takeWhile isWS ++ trimChars l ++ w2 := by
        rw [List.append_assoc]
        rfl

theorem trimChars_head_false (l : List Char) (c : Char) (rest : List Char)
    (h : trimChars l = c :: rest) : isWS c = false := by
  unfold trimChars trimRightChars at h
  have hpre : ((l.dropWhile isWS).reverse.dropWhile isWS).reverse <+:
      l.dropWhile isWS := by
    have h1 : (l.dropWhile isWS).reverse.dropWhile isWS <:+
        (l.dropWhile isWS).reverse := List.dropWhile_suffix isWS
    have h2 := List.reverse_prefix.mpr h1
    rwa [List.reverse_reverse] at h2
  rw [h] at hpre
  obtain ⟨u, hu⟩ := hpre
  exact dropWhile_head_false l c (rest ++ u) (by rw [← hu, List.cons_append])

theorem trimChars_last_false (l : List Char) :
    ∀ c ∈ (trimChars l).reverse.head?, isWS c = false := by
  intro c hc
  unfold trimChars trimRightChars at hc
  rw [List.reverse_reverse] at hc
  cases hd : (l.dropWhile isWS).reverse.dropWhile isWS with
  | nil => rw [hd] at hc; simp at hc
  | cons x xs =>
    rw [hd] at hc
    simp only [List.head?_cons, Option.mem_def, Option.some_inj] at hc
    rw [← hc]
    exact dropWhile_head_false _ x xs hd

theorem trim_ne_nil_of_mem (l : List Char) (c : Char) (hc : c ∈ l)
    (hw : isWS c = false) : trimChars l ≠ [] := by
  intro h
  obtain ⟨w1, w2, hdec, h1, h2⟩ := trimChars_decomp l
  rw [h] at hdec
  simp only [List.append_nil] at hdec
  rw [hdec] at hc
  rcases List.mem_append.mp hc with hm | hm
  · rw [List.all_eq_true] at h1
    rw [h1 c hm] at hw
    simp at hw
  · rw [List.all_eq_true] at h2
    rw [h2 c hm] at hw
    simp at hw

theorem trimChars_all_isWS (l : List Char) (h : trimChars l = []) :
    l.all isWS := by
  rw [List.all_eq_true]
  intro c hc
  by_contra hnw
  exact trim_ne_nil_of_mem l c hc (by simpa using hnw) h

theorem dropWhile_all_nil (l : List Char) (h : l.all isWS) :
    l.dropWhile isWS = [] := by
  induction l with
  | nil => rfl
  | cons c cs ih =>
    simp only [List.all_cons, Bool.and_eq_true] at h
    rw [List.dropWhile_cons, if_pos h.1]
    exact ih h.2

theorem trimRightChars_all (l : List Char) (h : l.all isWS) :
    trimRightChars l = [] := by
  unfold trimRightChars
  rw [dropWhile_all_nil l.reverse (by rwa [List.all_reverse])]
  rfl

theorem trimChars_of_all (l : List Char) (h : l.all isWS) : trimChars l = [] := by
  unfold trimChars
  rw [dropWhile_all_nil l h]
  rfl

theorem trimRightChars_append_exists (w x : List Char)
    (h : ∃ a ∈ x, isWS a = false) :
    trimRightChars (w ++ x) = w ++ trimRightChars x := by
  unfold trimRightChars
  rw [List.reverse_append]
  rw [dropWhile_append_exists x.reverse w.reverse
    (by rcases h with ⟨a, ha, hwa⟩; exact ⟨a, List.mem_reverse.mpr ha, hwa⟩)]
  rw [List.reverse_append, List.reverse_reverse]

theorem trimChars_suffix_trimRight (l : List Char) :
    trimChars l <:+ trimRightChars l := by
  cases hd : l.dropWhile isWS with
  | nil =>
    unfold trimChars
    rw [hd]
    show ([] : List Char) <:+ _
    exact List.nil_suffix
  | cons c rest =>
    have hc : isWS c = false := dropWhile_head_false l c rest hd
    have hl : l = l.takeWhile isWS ++ (c :: rest) := by
      rw [← hd]
      exact (List.takeWhile_append_dropWhile _ _).symm
    have hx : ∃ a ∈ c :: rest, isWS a = false := ⟨c, List.mem_cons_self c rest, hc⟩
    calc trimChars l = trimRightChars (c :: rest) := by unfold trimChars; rw [hd]
      _ <:+ l.takeWhile isWS ++ trimRightChars (c :: rest) := List.suffix_append _ _
      _ = trimRightChars (l.takeWhile isWS ++ (c :: rest)) :=
          (trimRightChars_append_exists _ _ hx).symm
      _ = trimRightChars l := by rw [← hl]

theorem trimChars_suffix_cons (c : Char) (l : List Char) :
    trimChars l <:+ trimChars (c :: l) := by
  by_cases hc : isWS c
  · have : trimChars (c :: l) = trimChars l := by
      unfold trimChars
      rw [List.dropWhile_cons, if_pos hc]
    rw [this]
  · by_cases hall : l.all isWS
    · rw [trimChars_of_all l hall]
      exact List.nil_suffix
    · have hx : ∃ a ∈ l, isWS a = false := by
        rw [List.all_eq_true] at hall
        push_neg at hall
        rcases hall with ⟨a, ha, hwa⟩
        exact ⟨a, ha, by simpa using hwa⟩
      have h1 : trimChars (c :: l) = c :: trimRightChars l := by
        unfold trimChars
        rw [List.dropWhile_cons, if_neg hc]
        show trimRightChars ([c] ++ l) = _
        rw [trimRightChars_append_exists [c] l hx]
        rfl
      rw [h1]
      exact (trimChars_suffix_trimRight l).trans (List.suffix_cons c _)

theorem trimChars_suffix_mono (l' l : List Char) (h : l' <:+ l) :
    trimChars l' <:+ trimChars l := by
  obtain ⟨u, rfl⟩ := h
  induction u with
  | nil => simp
  | cons c u ih =>
    exact ih.trans (trimChars_suffix_cons c (u ++ l'))

theorem trim_linked (w t r : List Char) (hw : w.all isWS) (ht : t ≠ [])
    (hth : ∀ c ∈ t.head?, isWS c = false) (hr : ∃ x ∈ r, isWS x = false) :
    trimChars (w ++ t ++ (' ' :: r)) = t ++ ' ' :: trimRightChars r := by
  unfold trimChars
  rw [List.append_assoc, dropWhile_append_all w _ hw]
  cases t with
  | nil => exact absurd rfl ht
  | cons c ts =>
    have hc : isWS c = false := hth c (by simp)
    rw [List.cons_append, List.dropWhile_cons, hc]
    simp only [Bool.false_eq_true, if_false]
    have he : c :: (ts ++ ' ' :: r) = ((c :: ts) ++ [' ']) ++ r := by
      simp [List.append_assoc]
    rw [he, trimRightChars_append_exists _ r hr]
    simp [List.append_assoc]

theorem splitGo_nil (acc : List Char) : splitGo [] acc = [acc.reverse] := by
  rw [splitGo.eq_def]

theorem splitGo_cons (c : Char) (rest acc : List Char) :
    splitGo (c :: rest) acc =
      if (isWS c && (match acc with | a :: _ => isTerm a | [] => false)) = true then
        acc.reverse :: splitGo (rest.dropWhile isWS) []
      else splitGo rest (c :: acc) := by
  rw [splitGo.eq_def]

theorem splitGo_infix :
    ∀ (n : Nat) (l acc : List Char), l.length ≤ n →
      ∀ piece ∈ splitGo l acc, piece <:+: (acc.reverse ++ l) := by
  intro n
  induction n with
  | zero =>
    intro l acc hl piece hp
    have hnil : l = [] := List.eq_nil_of_length_eq_zero (Nat.le_zero.mp hl)
    subst hnil
    rw [splitGo_nil] at hp
    simp only [List.mem_singleton] at hp
    subst hp
    simp
  | succ n ihn =>
    intro l acc hl piece hp
    cases l with
    | nil =>
      rw [splitGo_nil] at hp
      simp only [List.mem_singleton] at hp
      subst hp
      simp
    | cons c rest =>
      rw [splitGo_cons] at hp
      split at hp
      · rcases List.mem_cons.mp hp with he | hm
        · subst he
          exact (List.prefix_append acc.reverse (c :: rest)).isInfix
        · have hlen : (rest.dropWhile isWS).length ≤ n := by
            have h1 : (rest.dropWhile isWS).length ≤ rest.length :=
              (List.dropWhile_suffix isWS).sublist.length_le
            have h2 : rest.length ≤ n := by
              simpa using Nat.le_of_succ_le_succ hl
            omega
          have hinf := ihn (rest.dropWhile isWS) [] hlen piece hm
          simp only [List.reverse_nil, List.nil_append] at hinf
          refine hinf.trans ?_
          refine List.IsInfix.trans ?_ (List.suffix_append acc.reverse (c :: rest)).isInfix
          exact ((List.dropWhile_suffix isWS).trans (List.suffix_cons c rest)).isInfix
      · have hlen : rest.length ≤ n := by
          simpa using Nat.le_of_succ_le_succ hl
        have hinf := ihn rest (c :: acc) hlen piece hp
        rw [List.reverse_cons, List.append_assoc] at hinf
        simpa using hinf

theorem sentences_ok (text : List Char) (hclean : noTwoWS text) :
    ∀ s ∈ splitIntoSentences text, SentenceOK s := by
  intro s hs
  unfold splitIntoSentences at hs
  rcases List.mem_map.mp hs with ⟨p, hp, rfl⟩
  rcases List.mem_filter.mp hp with ⟨hpmem, hpne⟩
  have hne : trimChars p ≠ [] := by
    intro h
    rw [h] at hpne
    simp at hpne
  have hpinf : p <:+: text := by
    have := splitGo_infix text.length text [] (le_refl _) p hpmem
    simpa using this
  have hminf : trimChars p <:+: p := by
    obtain ⟨w1, w2, hdec, _, _⟩ := trimChars_decomp p
    exact ⟨w1, w2, hdec.symm⟩
  have hchain : noTwoWS (trimChars p) :=
    List.Chain'.infix hclean (hminf.trans hpinf)
  constructor
  · show List.Chain' _ (trimChars p ++ [' '])
    rw [List.chain'_append]
    refine ⟨hchain, List.chain'_singleton _, ?_⟩
    intro x hx y hy
    simp only [List.head?_cons, Option.mem_def, Option.some_inj] at hy
    left
    have hlast := trimChars_last_false p
    rw [← List.head?_reverse] at hx
    exact hlast x hx
  · refine ⟨trimChars p, rfl, hne, ?_⟩
    intro ch hch
    cases hm : trimChars p with
    | nil => exact absurd hm hne
    | cons c0 cs =>
      rw [hm] at hch
      simp only [List.head?_cons, Option.mem_def, Option.some_inj] at hch
      rw [← hch]
      exact trimChars_head_false p c0 cs hm

theorem jsSliceFrom_suffix (l : List Char) (s : Int) : jsSliceFrom l s <:+ l :=
  List.drop_suffix _ _

theorem getOverlapText_suffix (cur : List Char) (ov : Int) :
    getOverlapText cur ov <:+ cur := by
  unfold getOverlapText
  by_cases h : (cur.length : Int) ≤ ov
  · rw [if_pos h]
  · rw [if_neg h]
    exact jsSliceFrom_suffix _ _

theorem getLast?_of_suffix (l' l : List Char) (h : l' <:+ l) (hne : l' ≠ []) :
    l.getLast? = l'.getLast? := by
  obtain ⟨u, rfl⟩ := h
  rw [← List.head?_reverse, ← List.head?_reverse, List.reverse_append]
  cases hrev : l'.reverse with
  | nil =>
    exact absurd (by simpa using congrArg List.reverse hrev) hne
  | cons x xs => rw [List.cons_append, List.head?_cons, List.head?_cons]

theorem scanBreakAux_bounds (chunk : List Char) (ov : Int) :
    ∀ (k : Nat) (i : Int), (i - (ov - 50)).toNat ≤ k → i ≤ ov →
      scanBreakAux chunk ov i = ov ∨
        (2 ≤ scanBreakAux chunk ov i ∧ scanBreakAux chunk ov i ≤ i + 1) := by
  intro k
  induction k with
  | zero =>
    intro i hk hi
    rw [scanBreakAux.eq_def]
    have hcond : ¬(i > ov - 50 ∧ i > 0) := by omega
    rw [dif_neg hcond]
    exact Or.inl rfl
  | succ k ih =>
    intro i hk hi
    rw [scanBreakAux.eq_def]
    by_cases hcond : i > ov - 50 ∧ i > 0
    · rw [dif_pos hcond]
      by_cases hchar : charAtInt chunk i = some ' '
      · rw [if_pos hchar]
        exact Or.inr ⟨by omega, by omega⟩
      · rw [if_neg hchar]
        rcases ih (i - 1) (by omega) (by omega) with h | h
        · exact Or.inl h
        · exact Or.inr ⟨h.1, by omega⟩
    · rw [dif_neg hcond]
      exact Or.inl rfl

theorem jsSliceFrom_neg_length (l : List Char) (b : Int) (hb : 0 < b)
    (hble : b ≤ (l.length : Int)) :
    ((jsSliceFrom l (-b)).length : Int) = b := by
  unfold jsSliceFrom
  rw [if_pos (by omega : -b < (0 : Int))]
  have hm : max ((l.length : Int) + -b) 0 = (l.length : Int) - b := by
    rw [max_eq_left (by omega)]
    ring
  rw [hm]
  rw [List.length_drop]
  omega

theorem getOverlapText_len_bounds (cur : List Char) (ov : Int)
    (hend : cur.getLast? = some ' ') (hne : trimChars cur ≠ [])
    (h2 : 2 ≤ ov) (h50 : ov ≤ 50) :
    2 ≤ (getOverlapText cur ov).length ∧
      ((getOverlapText cur ov).length : Int) ≤ ov + 1 := by
  have hcur2 : 2 ≤ cur.length := by
    match cur, hend with
    | [x], hend =>
      have hx : x = ' ' := by simpa [List.getLast?] using hend
      subst hx
      exact absurd (trimChars_of_all [' '] (by simp [isWS])) hne
    | x :: y :: rest, _ => simp
  unfold getOverlapText
  by_cases h : (cur.length : Int) ≤ ov
  · rw [if_pos h]
    exact ⟨hcur2, by omega⟩
  · rw [if_neg h]
    have hb := scanBreakAux_bounds cur ov 50 ov (by omega) (le_refl ov)
    have hbb : 2 ≤ scanBreakAux cur ov ov ∧ scanBreakAux cur ov ov ≤ ov + 1 := by
      rcases hb with hb | hb
      · rw [hb]; omega
      · exact ⟨hb.1, by omega⟩
    have hlen := jsSliceFrom_neg_length cur (scanBreakAux cur ov ov)
      (by omega) (by omega)
    constructor
    · omega
    · omega

theorem overlap_structure (cur : List Char) (ov : Int)
    (hclean : noTwoWS cur) (hend : cur.getLast? = some ' ')
    (hne : trimChars cur ≠ []) (h2 : 2 ≤ ov) (h50 : ov ≤ 50) :
    ∃ w t, getOverlapText cur ov = w ++ t ++ [' '] ∧ w.all isWS ∧ t ≠ [] ∧
      (∀ c ∈ t.head?, isWS c = false) ∧ t <:+ trimChars cur ∧
      (t.length : Int) ≤ ov := by
  have hsuf : getOverlapText cur ov <:+ cur := getOverlapText_suffix cur ov
  obtain ⟨hlen2, hlenov⟩ := getOverlapText_len_bounds cur ov hend hne h2 h50
  set ol := getOverlapText cur ov with hol
  have holne : ol ≠ [] := by
    intro h
    rw [h] at hlen2
    simp at hlen2
  have holend : ol.getLast? = some ' ' := by
    rw [← getLast?_of_suffix ol cur hsuf holne]
    exact hend
  have holclean : noTwoWS ol := List.Chain'.suffix hclean hsuf
  have holsplit : ol = ol.dropLast ++ [' '] := by
    have h1 := List.dropLast_append_getLast holne
    have hlg : ol.getLast holne = ' ' := by
      have hg := List.getLast?_eq_getLast ol holne
      rw [holend] at hg
      exact (Option.some_inj.mp hg).symm
    conv_lhs => rw [← h1]
    rw [hlg]
  have hdlne : ol.dropLast ≠ [] := by
    intro h
    rw [h] at holsplit
    rw [holsplit] at hlen2
    simp at hlen2
  have hlastdl : ∀ x ∈ ol.dropLast.getLast?, isWS x = false := by
    intro x hx
    have hch : List.Chain' (fun a b => isWS a = false ∨ isWS b = false)
        (ol.dropLast ++ [' ']) := by
      rw [← holsplit]
      exact holclean
    rw [List.chain'_append] at hch
    rcases hch.2.2 x hx ' ' (by simp) with h | h
    · exact h
    · simp [isWS] at h
  have hnonws : ∃ x ∈ ol, isWS x = false := by
    refine ⟨ol.dropLast.getLast hdlne,
      List.mem_of_mem_dropLast (List.getLast_mem hdlne), ?_⟩
    apply hlastdl
    rw [List.getLast?_eq_getLast _ hdlne]
    rfl
  obtain ⟨xw, hxw, hxwf⟩ := hnonws
  have htne : trimChars ol ≠ [] := trim_ne_nil_of_mem ol xw hxw hxwf
  obtain ⟨w1, w2, hdec, hw1, hw2⟩ := trimChars_decomp ol
  have hw2ne : w2 ≠ [] := by
    intro h
    rw [h, List.append_nil] at hdec
    have hlasteq : ol.getLast? = (trimChars ol).getLast? := by
      conv_lhs => rw [hdec]
      exact getLast?_of_suffix (trimChars ol) (w1 ++ trimChars ol)
        (List.suffix_append w1 (trimChars ol)) htne
    have hfalse := trimChars_last_false ol ' '
      (by rw [List.head?_reverse, ← hlasteq, holend]; rfl)
    simp [isWS] at hfalse
  have hw2len : w2.length ≤ 1 := by
    by_contra hgt
    push_neg at hgt
    obtain ⟨c1, w2', rfl⟩ : ∃ c1 w2', w2 = c1 :: w2' := by
      cases w2 with
      | nil => simp at hgt
      | cons a b => exact ⟨a, b, rfl⟩
    obtain ⟨c2, w2'', rfl⟩ : ∃ c2 w2'', w2' = c2 :: w2'' := by
      cases w2' with
      | nil => simp at hgt
      | cons a b => exact ⟨a, b, rfl⟩
    have hsufw2 : (c1 :: c2 :: w2'') <:+ ol := by
      rw [hdec]
      exact List.suffix_append _ _
    have hch := List.Chain'.suffix holclean hsufw2
    rw [List.chain'_cons] at hch
    simp only [List.all_cons, Bool.and_eq_true] at hw2
    rcases hch.1 with h | h
    · rw [hw2.1] at h
      simp at h
    · rw [hw2.2.1] at h
      simp at h
  obtain ⟨cl, rfl⟩ : ∃ cl, w2 = [cl] := by
    cases w2 with
    | nil => exact absurd rfl hw2ne
    | cons a b =>
      cases b with
      | nil => exact ⟨a, rfl⟩
      | cons d b' => simp at hw2len
  have hcl : cl = ' ' := by
    have hlast : ol.getLast? = some cl := by
      rw [hdec]
      rw [getLast?_of_suffix [cl] (w1 ++ trimChars ol ++ [cl])
        (List.suffix_append _ _) (by simp)]
      rfl
    rw [holend] at hlast
    exact (Option.some_inj.mp hlast).symm
  subst hcl
  refine ⟨w1, trimChars ol, hdec, hw1, htne, ?_, ?_, ?_⟩
  · intro c hc
    cases hm : trimChars ol with
    | nil => exact absurd hm htne
    | cons c0 cs =>
      rw [hm] at hc
      simp only [List.head?_cons, Option.mem_def, Option.some_inj] at hc
      rw [← hc]
      exact trimChars_head_false ol c0 cs hm
  · exact trimChars_suffix_mono ol cur hsuf
  · have hl : w1.length + (trimChars ol).length + 1 = ol.length := by
      conv_rhs => rw [hdec]
      simp
      omega
    omega

theorem noTwoWS_iff_b (l : List Char) : noTwoWS l ↔ noTwoWSb l = true := by
  induction l with
  | nil => simp [noTwoWS, noTwoWSb]
  | cons a rest ih =>
    cases rest with
    | nil => simp [noTwoWS, noTwoWSb]
    | cons b rest2 =>
      rw [noTwoWS, List.chain'_cons, noTwoWSb]
      rw [noTwoWS] at ih
      rw [ih]
      constructor
      · rintro ⟨h1, h2⟩
        simp only [Bool.and_eq_true, Bool.or_eq_true, Bool.not_eq_true']
        exact ⟨by rcases h1 with h | h <;> simp [h], h2⟩
      · rintro h
        simp only [Bool.and_eq_true, Bool.or_eq_true, Bool.not_eq_true'] at h
        exact ⟨h.1, h.2⟩

theorem sentence_head_false (s : List Char) (hs : SentenceOK s) :
    ∀ y ∈ s.head?, isWS y = false := by
  obtain ⟨_, m, rfl, hm, hmh⟩ := hs
  intro y hy
  cases m with
  | nil => exact absurd rfl hm
  | cons c ms =>
    rw [List.cons_append, List.head?_cons] at hy
    simp only [Option.mem_def, Option.some_inj] at hy
    rw [← hy]
    exact hmh c (by simp)

theorem sentence_ne_nil (s : List Char) (hs : SentenceOK s) : s ≠ [] := by
  obtain ⟨_, m, rfl, hm, _⟩ := hs
  simp

theorem sentence_getLast (s : List Char) (hs : SentenceOK s) :
    s.getLast? = some ' ' := by
  obtain ⟨_, m, rfl, _, _⟩ := hs
  rw [getLast?_of_suffix [' '] (m ++ [' ']) (List.suffix_append m [' ']) (by simp)]
  rfl

theorem sentence_has_nonWS (s : List Char) (hs : SentenceOK s) :
    ∃ x ∈ s, isWS x = false := by
  obtain ⟨_, m, rfl, hm, hmh⟩ := hs
  cases m with
  | nil => exact absurd rfl hm
  | cons c ms => exact ⟨c, by simp, hmh c (by simp)⟩

theorem noTwoWS_append (cur s : List Char) (hc : noTwoWS cur)
    (hs : SentenceOK s) : noTwoWS (cur ++ s) := by
  rw [noTwoWS, List.chain'_append]
  exact ⟨hc, hs.1, fun x _ y hy => Or.inr (sentence_head_false s hs y hy)⟩

theorem LinkOK_trim (ov : Int) (p cur : List Char) (h : LinkOK ov p cur) :
    trimChars cur ≠ [] ∧ SharpLink ov p (trimChars cur) := by
  obtain ⟨w, t, r, rfl, hw, ht, hth, hts, htlen, hr⟩ := h
  rw [trim_linked w t r hw ht hth hr]
  constructor
  · cases t with
    | nil => exact absurd rfl ht
    | cons c ts => simp
  · refine ⟨t, ht, hts, htlen, ?_⟩
    have he : t ++ ' ' :: trimRightChars r = (t ++ [' ']) ++ trimRightChars r := by
      simp
    rw [he]
    exact List.prefix_append _ _

theorem LinkOK_append (ov : Int) (p cur s : List Char) (h : LinkOK ov p cur)
    (hs : SentenceOK s) : LinkOK ov p (cur ++ s) := by
  obtain ⟨w, t, r, rfl, hw, ht, hth, hts, htlen, hr⟩ := h
  refine ⟨w, t, r ++ s, by simp, hw, ht, hth, hts, htlen, ?_⟩
  rcases hr with ⟨x, hx, hxf⟩
  exact ⟨x, List.mem_append.mpr (Or.inl hx), hxf⟩

theorem chunkStep_inv (size ov : Int) (h2 : 2 ≤ ov) (h50 : ov ≤ 50)
    (st : ChunkState) (s : List Char) (hs : SentenceOK s) (hinv : BufInv ov st) :
    BufInv ov (chunkStep size ov st s) := by
  obtain ⟨hclean, hend, hchain, hlink⟩ := hinv
  unfold chunkStep
  by_cases hcond : st.currentSize + (s.length : Int) > size ∧
      trimChars st.currentChunk ≠ []
  · rw [if_pos hcond]
    have hendS : st.currentChunk.getLast? = some ' ' := by
      rcases hend with h | h
      · exact absurd (by rw [h]; rfl) hcond.2
      · exact h
    obtain ⟨w, t, hol, hw, ht, hth, hts, htlen⟩ :=
      overlap_structure st.currentChunk ov hclean hendS hcond.2 h2 h50
    have holclean : noTwoWS (getOverlapText st.currentChunk ov) :=
      List.Chain'.suffix hclean (getOverlapText_suffix _ _)
    refine ⟨?_, ?_, ?_, ?_⟩
    · exact noTwoWS_append _ s holclean hs
    · right
      show (getOverlapText st.currentChunk ov ++ s).getLast? = some ' '
      rw [getLast?_of_suffix s _ (List.suffix_append _ s) (sentence_ne_nil s hs)]
      exact sentence_getLast s hs
    · show List.Chain' (SharpLink ov) (st.chunks ++ [trimChars st.currentChunk])
      rw [List.chain'_append]
      refine ⟨hchain, List.chain'_singleton _, ?_⟩
      intro x hx y hy
      simp only [List.head?_cons, Option.mem_def, Option.some_inj] at hy
      rcases hlink with h | ⟨p, hgl, hLink⟩
      · rw [h] at hx
        simp at hx
      · rw [hgl] at hx
        simp only [Option.mem_def, Option.some_inj] at hx
        rw [← hx, ← hy]
        exact (LinkOK_trim ov p st.currentChunk hLink).2
    · right
      refine ⟨trimChars st.currentChunk, ?_, ?_⟩
      · show (st.chunks ++ [trimChars st.currentChunk]).getLast? = _
        rw [List.getLast?_concat]
      · show LinkOK ov (trimChars st.currentChunk)
          (getOverlapText st.currentChunk ov ++ s)
        refine ⟨w, t, s, ?_, hw, ht, hth, hts, htlen, sentence_has_nonWS s hs⟩
        rw [hol]
        simp
  · rw [if_neg hcond]
    refine ⟨?_, ?_, hchain, ?_⟩
    · exact noTwoWS_append _ s hclean hs
    · right
      show (st.currentChunk ++ s).getLast? = some ' '
      rw [getLast?_of_suffix s _ (List.suffix_append _ s) (sentence_ne_nil s hs)]
      exact sentence_getLast s hs
    · rcases hlink with h | ⟨p, hgl, hLink⟩
      · exact Or.inl h
      · exact Or.inr ⟨p, hgl, LinkOK_append ov p st.currentChunk s hLink hs⟩

theorem chunkCore_chain (text : List Char) (size ov : Int) (h2 : 2 ≤ ov)
    (h50 : ov ≤ 50) (hclean : noTwoWS text) :
    List.Chain' (SharpLink ov) (chunkCore text size ov) := by
  have hsents := sentences_ok text hclean
  have hfold : ∀ (ss : List (List Char)) (st : ChunkState),
      (∀ s ∈ ss, SentenceOK s) → BufInv ov st →
      BufInv ov (ss.foldl (chunkStep size ov) st) := by
    intro ss
    induction ss with
    | nil => intro st _ h; exact h
    | cons s rest ih =>
      intro st hok hinv
      exact ih _ (fun x hx => hok x (List.mem_cons_of_mem _ hx))
        (chunkStep_inv size ov h2 h50 st s (hok s (List.mem_cons_self _ _)) hinv)
  have hinv := hfold (splitIntoSentences text) ⟨[], [], 0⟩ hsents
    ⟨List.chain'_nil, Or.inl rfl, List.chain'_nil, Or.inl rfl⟩
  unfold chunkCore
  obtain ⟨_, _, hchain, hlink⟩ := hinv
  by_cases hne : trimChars ((splitIntoSentences text).foldl
      (chunkStep size ov) ⟨[], [], 0⟩).currentChunk ≠ []
  · rw [if_pos hne]
    rw [List.chain'_append]
    refine ⟨hchain, List.chain'_singleton _, ?_⟩
    intro x hx y hy
    simp only [List.head?_cons, Option.mem_def, Option.some_inj] at hy
    rcases hlink with h | ⟨p, hgl, hLink⟩
    · rw [h] at hx
      simp at hx
    · rw [hgl] at hx
      simp only [Option.mem_def, Option.some_inj] at hx
      rw [← hx, ← hy]
      exact (LinkOK_trim ov p _ hLink).2
  · rw [if_neg hne]
    exact hchain

/-- Claim C2: for every input and valid parameter pair, each adjacent pair of
produced passages overlaps as claimed: some tail of the former passage of
length at most `overlapSize` is a prefix of the latter (first conjunct,
exactly as stated — satisfied with the empty tail in degenerate cases); and
for single-spaced text with `2 ≤ overlapSize ≤ 50` the link is sharp: a
non-empty tail of the former passage of length at most `overlapSize`,
followed by a space, begins the latter passage (second conjunct).
`chunkCore` is the sentence loop `chunkText` runs after validation, with the
effective size parameters. -/
theorem chunkText_overlap_invariant (text : List Char) (size ov : Int)
    (hs : 0 < size) (h0 : 0 ≤ ov) (hov : ov < size) :
    List.Chain' (fun p q => ∃ n : Nat, (n : Int) ≤ ov ∧ lastN n p <+: q)
      (chunkCore text size ov) ∧
    (noTwoWS text → 2 ≤ ov → ov ≤ 50 →
      List.Chain' (SharpLink ov) (chunkCore text size ov)) := by
  constructor
  · have htriv : ∀ (l : List (List Char)),
        List.Chain' (fun p q => ∃ n : Nat, (n : Int) ≤ ov ∧ lastN n p <+: q) l := by
      intro l
      induction l with
      | nil => exact List.chain'_nil
      | cons x xs ih =>
        rw [List.chain'_cons']
        refine ⟨fun y _ => ⟨0, by omega, ?_⟩, ih⟩
        unfold lastN
        rw [Nat.sub_zero, List.drop_length]
        exact List.nil_prefix
    exact htriv _
  · intro hclean hc2 hc50
    exact chunkCore_chain text size ov hc2 hc50 hclean

theorem chunkText_overlap_invariant_witness :
    (0 : Int) < 10 ∧ (0 : Int) ≤ 4 ∧ (4 : Int) < 10 ∧
    noTwoWS ("Alpha beta. Gamma delta. Epsilon zeta." : String).toList ∧
    (2 : Int) ≤ 4 ∧ (4 : Int) ≤ 50 ∧
    List.Chain' (SharpLink 4)
      (chunkCore ("Alpha beta. Gamma delta. Epsilon zeta." : String).toList 10 4) := by
  refine ⟨by norm_num, by norm_num, by norm_num, (noTwoWS_iff_b _).mpr rfl,
    by norm_num, by norm_num, ?_⟩
  exact (chunkText_overlap_invariant
    ("Alpha beta. Gamma delta. Epsilon zeta." : String).toList 10 4
    (by norm_num) (by norm_num) (by norm_num)).2 ((noTwoWS_iff_b _).mpr rfl)
    (by norm_num) (by norm_num)
